import Mathlib

/-!
Verification of the Prop-AMM multi-strategy competition engine

A shallow embedding of the simulation engine (src/market.rs, src/capital.rs,
src/sim.rs, src/types.rs) and proofs about it.

Modelling conventions:
* `u64` / `u128` / `u32` values are embedded as `ℕ`; every operation that can
  overflow or saturate in Rust is modelled explicitly (`satAdd64`, truncated
  subtraction, `% 2^64` for `as u64` narrowing casts).
* `f64` arithmetic is embedded as exact `ℚ` arithmetic.  Casts `f64 → u64`
  (Rust `as`, which truncates towards zero and saturates at the ends of the
  target range) are modelled by `toU64` / `toU128`.
* `f64::exp` is not rational; wherever the source calls it the embedding takes
  an abstract function `rexp : ℚ → ℚ` as a parameter.  Theorems assume at most
  its positivity, which the real exponential satisfies.
* IEEE special values (NaN, ±∞) do not exist in `ℚ`; the one claim that is
  genuinely about them is settled against a dedicated `FP` type that carries
  NaN/±∞ and implements the IEEE/Rust semantics of the operations used.
-/

namespace PropAmm

/-- `types.rs`: `SCALE = 1_000_000_000` (1 unit = 10⁹). -/
def SCALE : ℕ := 1000000000

/-- `SCALE` as a rational, mirroring `SCALE_F : f64`. -/
def SCALEQ : ℚ := 1000000000

/-- Largest `u64` value. -/
def U64MAX : ℕ := 2 ^ 64 - 1

/-- Largest `u128` value. -/
def U128MAX : ℕ := 2 ^ 128 - 1

/-- Rust `f64 as u64`: truncate towards zero, saturating at `0` and `u64::MAX`.
(`q.num / q.den` is `⌊q⌋`, see `toU64_eq_floor`; saturating below at `0` makes
the truncation direction irrelevant for negative inputs.) -/
def toU64 (q : ℚ) : ℕ := min (max (q.num / (q.den : ℤ)) 0).toNat U64MAX

/-- Rust `f64 as u128`: truncate towards zero, saturating at `0` and `u128::MAX`. -/
def toU128 (q : ℚ) : ℕ := min (max (q.num / (q.den : ℤ)) 0).toNat U128MAX


/-- Rust `u64::saturating_add`. -/
def satAdd64 (a b : ℕ) : ℕ := min (a + b) U64MAX

/-- `market.rs::cpamm_output`: CPAMM output with fee, all intermediate
arithmetic in `u128` (wide enough to be exact for `u64` inputs, so plain `ℕ`
arithmetic with truncating division is a faithful model):
`input_eff = input * (10000 - fee_bps) / 10000`,
`output = reserve_out * input_eff / (reserve_in + input_eff)`,
guarded by `reserve_in + input_eff == 0`. -/
def cpamm_output (input reserve_in reserve_out : ℕ) (fee_bps : ℕ) : ℕ :=
  let gamma_num := 10000 - fee_bps
  let input_eff := input * gamma_num / 10000
  if reserve_in + input_eff = 0 then 0
  else reserve_out * input_eff / (reserve_in + input_eff)

/-- `market.rs::apply_cpamm_trade`: update the reserves in place, with
`saturating_add` / `saturating_sub`.  Returns `(reserve_x, reserve_y)`. -/
def apply_cpamm_trade (reserve_x reserve_y : ℕ) (is_buy : Bool)
    (input output : ℕ) : ℕ × ℕ :=
  if is_buy then (reserve_x - output, satAdd64 reserve_y input)
  else (satAdd64 reserve_x input, reserve_y - output)

/-- `types.rs`: strategy-private storage, `[u8; 1024]`, zero-initialised. -/
def Storage : Type := List ℕ

instance : DecidableEq Storage := by
  unfold Storage
  infer_instance

/-- Zero-initialised storage (`AmmState::new`). -/
def initStorage : Storage := List.replicate 1024 0

/-- `types.rs::AmmState`: live state of one pool. -/
structure AmmState where
  reserve_x : ℕ
  reserve_y : ℕ
  storage : Storage
  cumulative_edge : ℚ
  epoch_edge : ℚ
  epoch_trade_count : ℕ
  capital_weight : ℚ
  strategy_index : ℕ
  name : String
deriving DecidableEq

/-- `AmmState::new`. -/
def AmmState.new (rx ry idx : ℕ) (name : String) : AmmState :=
  { reserve_x := rx, reserve_y := ry, storage := initStorage,
    cumulative_edge := 0, epoch_edge := 0, epoch_trade_count := 0,
    capital_weight := 1, strategy_index := idx, name := name }

/-- `AmmState::spot_price`: `reserve_y / reserve_x` as `f64`. -/
def AmmState.spot_price (a : AmmState) : ℚ := (a.reserve_y : ℚ) / (a.reserve_x : ℚ)

/-- `AmmState::accrue_edge`: accumulate edge in unscaled Y units into both
`cumulative_edge` and `epoch_edge`, and bump `epoch_trade_count`. -/
def AmmState.accrue_edge (a : AmmState) (amount_x amount_y : ℕ) (is_buy : Bool)
    (fair_price : ℚ) : AmmState :=
  let ax := (amount_x : ℚ) / SCALEQ
  let ay := (amount_y : ℚ) / SCALEQ
  let edge := if is_buy then ay - ax * fair_price else ax * fair_price - ay
  { a with cumulative_edge := a.cumulative_edge + edge,
           epoch_edge := a.epoch_edge + edge,
           epoch_trade_count := a.epoch_trade_count + 1 }

/-- The `f64` literal `1.618033988749895` (`market.rs::golden_section_max`). -/
def PHI : ℚ := 1618033988749895 / 1000000000000000

/-- `resphi = 2.0 - PHI`. -/
def resphi : ℚ := 2 - PHI

/-- Bracket state of `market.rs::golden_section_max`: `(a, b, c, d, fc, fd)`. -/
structure GS where
  a : ℚ
  b : ℚ
  c : ℚ
  d : ℚ
  fc : ℚ
  fd : ℚ
deriving DecidableEq

/-- One iteration of the `golden_section_max` loop body (before the break
test): narrow the bracket towards the better of the two interior points. -/
def gsStep (f : ℚ → ℚ) (s : GS) : GS :=
  if s.fc < s.fd then
    let a' := s.c
    let d' := a' + resphi * (s.b - a')
    { a := a', b := s.b, c := s.d, d := d', fc := s.fd, fd := f d' }
  else
    let b' := s.d
    let c' := b' - resphi * (b' - s.a)
    { a := s.a, b := b', c := c', d := s.c, fc := f c', fd := s.fc }

/-- The early-break test of the `golden_section_max` loop:
`(b - a) / (b + a + 1e-14) < 1e-8`. -/
def gsDone (s : GS) : Bool :=
  (s.b - s.a) / (s.b + s.a + 1 / 100000000000000) < 1 / 100000000

/-- The `for _ in 0..iters` loop of `golden_section_max`: iterate `gsStep`,
breaking as soon as `gsDone` holds after an iteration.  Returns the final
bracket `(a, b)`. -/
def gsLoop (f : ℚ → ℚ) : ℕ → GS → ℚ × ℚ
  | 0, s => (s.a, s.b)
  | iters + 1, s =>
    let s' := gsStep f s
    if gsDone s' then (s'.a, s'.b) else gsLoop f iters s'

/-- `market.rs::golden_section_max`: golden-section search for the maximum of
a unimodal function on `[lo, hi]`, returning `(arg_max, max_value)` at the
final bracket midpoint. -/
def golden_section_max (f : ℚ → ℚ) (lo hi : ℚ) (iters : ℕ) : ℚ × ℚ :=
  let c := hi - resphi * (hi - lo)
  let d := lo + resphi * (hi - lo)
  let ab := gsLoop f iters { a := lo, b := hi, c := c, d := d, fc := f c, fd := f d }
  let x := (ab.1 + ab.2) / 2
  (x, f x)

/-- `market.rs::optimal_arb_trade`: golden-section search for the optimal
arbitrage trade against `fair_price`.  `compute_swap` is the strategy's quote
`(is_buy, input_scaled, rx, ry) ↦ output_scaled`.  Returns
`some (is_buy, input_scaled, output_scaled)` or `none`. -/
def optimal_arb_trade (amm : AmmState) (fair_price arb_profit_floor : ℚ)
    (compute_swap : Bool → ℕ → ℕ → ℕ → ℕ) : Option (Bool × ℕ × ℕ) :=
  let rx : ℚ := (amm.reserve_x : ℚ)
  let ry : ℚ := (amm.reserve_y : ℚ)
  let spot := ry / rx
  let is_buy_x := fair_price < spot
  let max_input := if is_buy_x then ry * (9 / 10) else rx * (9 / 10)
  let profit_fn := fun input_f : ℚ =>
    let input_scaled := toU64 (input_f * SCALEQ)
    if input_scaled = 0 then 0
    else
      let output_scaled := compute_swap is_buy_x input_scaled amm.reserve_x amm.reserve_y
      let output_f := (output_scaled : ℚ) / SCALEQ
      if is_buy_x then output_f * fair_price - input_f
      else output_f - input_f * fair_price
  let bi := golden_section_max profit_fn 0 max_input 50
  if bi.2 < arb_profit_floor ∨ bi.1 < 1 / SCALEQ then none
  else
    let input_scaled := toU64 (bi.1 * SCALEQ)
    let output_scaled := compute_swap is_buy_x input_scaled amm.reserve_x amm.reserve_y
    some (is_buy_x, input_scaled, output_scaled)

-- ── N-way optimal router (market.rs::route_order_n_amms) ─────────────────────

/-- Placeholder pool used to model Rust's panicking slice index as a total
function; every use in this development happens at in-bounds indices. -/
def dummyAmm : AmmState := AmmState.new 0 0 0 ("")

/-- Result of routing one retail order across N AMMs
(`market.rs::RoutingResult`). -/
structure RoutingResult where
  allocations : List (ℕ × ℕ)
  total_output : ℕ
deriving DecidableEq

/-- The router's numerical marginal-output function
`m_i(x) = (f_i(x+δ) - f_i(x)) / δ` with `δ = 0.001·x + 1/scale`.
`cs` is the unified compute-swap closure `(amm_idx, is_buy, input, rx, ry)`. -/
def marginal (cs : ℕ → Bool → ℕ → ℕ → ℕ → ℕ) (amms : List AmmState)
    (is_buy : Bool) (i : ℕ) (x : ℚ) : ℚ :=
  let amm := amms.getD i dummyAmm
  let delta := x * (1 / 1000) + 1 / SCALEQ
  let o1 := (cs i is_buy (toU64 (x * SCALEQ)) amm.reserve_x amm.reserve_y : ℚ) / SCALEQ
  let o2 := (cs i is_buy (toU64 ((x + delta) * SCALEQ)) amm.reserve_x amm.reserve_y : ℚ) / SCALEQ
  (o2 - o1) / delta

/-- The 60-iteration inner bisection of `allocation_at_shadow`, with the early
break on relative bracket width `< 1e-6`; returns the bracket midpoint. -/
def innerBisect (m : ℚ → ℚ) (lam : ℚ) : ℕ → ℚ → ℚ → ℚ
  | 0, lo, hi => (lo + hi) / 2
  | k + 1, lo, hi =>
    let mid := (lo + hi) / 2
    let p := if lam ≤ m mid then (mid, hi) else (lo, mid)
    if (p.2 - p.1) / (p.2 + p.1 + 1 / 1000000000000) < 1 / 1000000
    then (p.1 + p.2) / 2
    else innerBisect m lam k p.1 p.2

/-- `allocation_at_shadow`: how much input AMM `i` absorbs at shadow price
`lam` — the largest `x ∈ [0, 0.9·R_in]` with `marginal_i(x) ≥ lam`, found by
bisection. -/
def allocation_at_shadow (cs : ℕ → Bool → ℕ → ℕ → ℕ → ℕ) (amms : List AmmState)
    (is_buy : Bool) (i : ℕ) (lam : ℚ) : ℚ :=
  let amm := amms.getD i dummyAmm
  let max_in := (if is_buy then (amm.reserve_y : ℚ) else (amm.reserve_x : ℚ)) * (9 / 10) / SCALEQ
  if marginal cs amms is_buy i (1 / SCALEQ) < lam then 0
  else if lam ≤ marginal cs amms is_buy i max_in then max_in
  else innerBisect (marginal cs amms is_buy i) lam 60 0 max_in

/-- The 80-iteration outer bisection on the shadow price `λ`, with the early
break on relative width `< 1e-6`; moves `hi` down when `Σ x_i(λ)` exceeds the
order size.  Returns the final `(lo, hi)`. -/
def outerBisect (sumAt : ℚ → ℚ) (total_input : ℚ) : ℕ → ℚ → ℚ → ℚ × ℚ
  | 0, lo, hi => (lo, hi)
  | k + 1, lo, hi =>
    let mid := (lo + hi) / 2
    let p := if total_input < sumAt mid then (lo, mid) else (mid, hi)
    if (p.2 - p.1) / (p.2 + p.1 + 1 / 1000000000000) < 1 / 1000000
    then p
    else outerBisect sumAt total_input k p.1 p.2

/-- The shadow price `λ*` of `route_order_n_amms` (midpoint of the final outer
bisection bracket over `[0, 1.5 · max_i m_i(1/scale)]`). -/
def routerLambdaStar (cs : ℕ → Bool → ℕ → ℕ → ℕ → ℕ) (amms : List AmmState)
    (is_buy : Bool) (total_input : ℚ) : ℚ :=
  let n := amms.length
  let lambda_max := ((List.range n).map
    (fun i => marginal cs amms is_buy i (1 / SCALEQ))).foldl max 0
  let sumAt := fun lam =>
    ((List.range n).map (fun i => allocation_at_shadow cs amms is_buy i lam)).sum
  let p := outerBisect sumAt total_input 80 0 (lambda_max * (3 / 2))
  (p.1 + p.2) / 2

/-- The pre-rescale allocation vector `x̃_i = x_i(λ*)` of
`route_order_n_amms`. -/
def routerRawAllocs (cs : ℕ → Bool → ℕ → ℕ → ℕ → ℕ) (amms : List AmmState)
    (is_buy : Bool) (total_input : ℚ) : List ℚ :=
  (List.range amms.length).map
    (fun i => allocation_at_shadow cs amms is_buy i
      (routerLambdaStar cs amms is_buy total_input))

/-- `market.rs::route_order_n_amms`: equimarginal routing of one retail order
across N AMMs via bisection on the shadow price, followed by the final rescale
of the allocation vector by `total_input / Σ x̃_i`. -/
def route_order_n_amms (cs : ℕ → Bool → ℕ → ℕ → ℕ → ℕ) (amms : List AmmState)
    (is_buy : Bool) (total_input : ℚ) : RoutingResult :=
  let n := amms.length
  if n = 0 then { allocations := [], total_output := 0 }
  else if n = 1 then
    let amm := amms.getD 0 dummyAmm
    let input_scaled := toU64 (total_input * SCALEQ)
    let out := cs 0 is_buy input_scaled amm.reserve_x amm.reserve_y
    { allocations := [(input_scaled, out)], total_output := out }
  else
    let raw_allocs := routerRawAllocs cs amms is_buy total_input
    let raw_sum := raw_allocs.sum
    let scale := if 1 / 1000000000000 < raw_sum then total_input / raw_sum else 0
    let allocations := (List.range n).map (fun i =>
      let amm := amms.getD i dummyAmm
      let input_f := raw_allocs.getD i 0 * scale
      let input_scaled := toU64 (input_f * SCALEQ)
      if input_scaled = 0 then (0, 0)
      else (input_scaled, cs i is_buy input_scaled amm.reserve_x amm.reserve_y))
    { allocations := allocations,
      total_output := (allocations.map (fun p => p.2)).sum }

-- ── Capital allocator (capital.rs) ───────────────────────────────────────────

/-- `capital.rs::risk_adjusted_score`:
`score = epoch_edge - λ · max(0, -epoch_edge)`. -/
def risk_adjusted_score (epoch_edge lambda : ℚ) : ℚ :=
  epoch_edge - lambda * max 0 (-epoch_edge)

/-- The fold `scores.iter().fold(NEG_INFINITY, f64::max)`: on a non-empty list
of finite scores this is the list maximum, so the embedding folds `max` from
the head (the empty case is cut off earlier by `softmax_weights`). -/
def listMaxD : List ℚ → ℚ
  | [] => 0
  | a :: t => t.foldl max a

/-- The fold `scores.iter().fold(INFINITY, f64::min)`, analogously. -/
def listMinD : List ℚ → ℚ
  | [] => 0
  | a :: t => t.foldl min a

/-- `capital.rs::softmax_weights`: numerically-stable softmax with spread
normalisation, minimum-weight floor mix-in, and a final renormalisation.
`rexp` abstracts `f64::exp`. -/
def softmax_weights (rexp : ℚ → ℚ) (scores : List ℚ)
    (temperature min_weight : ℚ) : List ℚ :=
  let n := scores.length
  if n = 0 then []
  else
    let max_score := listMaxD scores
    let min_score := listMinD scores
    let spread_scale := max ((max_score - min_score) / 40) 1
    let exps := scores.map (fun s => rexp ((s - max_score) / (temperature * spread_scale)))
    let sum_exp := exps.sum
    let raw_weights := exps.map (fun e => e / sum_exp)
    let floor_total := min_weight * (n : ℚ)
    let weights :=
      if 0 < min_weight ∧ floor_total < 1
      then raw_weights.map (fun w => min_weight + (1 - floor_total) * w)
      else raw_weights
    let total := weights.sum
    weights.map (fun w => w / total)

/-- `types.rs::EpochSummary`. -/
structure EpochSummary where
  epoch_number : ℕ
  edge : ℚ
  trade_count : ℕ
  arb_losses : ℚ
  retail_gains : ℚ
  risk_adjusted_score : ℚ
deriving DecidableEq

/-- Placeholder summary for out-of-bounds indexing (never hit in-bounds). -/
def dummySummary : EpochSummary :=
  { epoch_number := 0, edge := 0, trade_count := 0, arb_losses := 0,
    retail_gains := 0, risk_adjusted_score := 0 }

/-- `types.rs::SimConfig`. -/
structure SimConfig where
  total_steps : ℕ
  epoch_len : ℕ
  seed : ℕ
  base_reserve_x : ℕ
  base_reserve_y : ℕ
  lambda : ℚ
  min_capital_weight : ℚ
  softmax_temperature : ℚ
  arb_profit_floor : ℚ

/-- `List.map` with the element index, written as plain structural recursion. -/
def mapWithIdxFrom (f : ℕ → α → β) : ℕ → List α → List β
  | _, [] => []
  | i, a :: t => f i a :: mapWithIdxFrom f (i + 1) t

/-- `mapWithIdxFrom` starting at index 0. -/
def mapWithIdx (f : ℕ → α → β) (l : List α) : List β := mapWithIdxFrom f 0 l

/-- `capital.rs::rebalance_capital`: build the epoch summaries, derive softmax
weights from the risk-adjusted scores, rescale every AMM's reserves to its new
weight preserving its spot price, and reset the epoch accumulators.  Mirrors
the `u128` intermediate arithmetic, including the final `as u64` narrowing
(`% 2^64`) of `new_reserve_y`.  Returns `(summaries, updated pools)`. -/
def rebalance_capital (rexp : ℚ → ℚ) (amms : List AmmState) (config : SimConfig)
    (epoch_number : ℕ) : List EpochSummary × List AmmState :=
  let summaries := amms.map (fun amm =>
    { epoch_number := epoch_number, edge := amm.epoch_edge,
      trade_count := amm.epoch_trade_count,
      arb_losses := min 0 amm.epoch_edge,
      retail_gains := max 0 amm.epoch_edge,
      risk_adjusted_score := risk_adjusted_score amm.epoch_edge config.lambda })
  let scores := summaries.map (fun s => s.risk_adjusted_score)
  let new_weights :=
    softmax_weights rexp scores config.softmax_temperature config.min_capital_weight
  let total_capital_y : ℕ := (amms.map (fun a => a.reserve_y * 2)).sum
  let amms' := mapWithIdx (fun i amm =>
    let target_capital_y : ℕ := toU128 ((total_capital_y : ℚ) * new_weights.getD i 0)
    let new_reserve_y : ℕ := (max (target_capital_y / 2) SCALE) % 2 ^ 64
    let spot := (amm.reserve_y : ℚ) / (amm.reserve_x : ℚ)
    let new_rx := toU64 (max ((new_reserve_y : ℚ) / spot) 1)
    { amm with reserve_x := new_rx, reserve_y := new_reserve_y,
               capital_weight := new_weights.getD i 0,
               epoch_edge := 0, epoch_trade_count := 0 }) amms
  (summaries, amms')

-- ── IEEE-special-value model of `softmax_weights` (for the NaN claim) ────────

/-- An `f64` carrying the IEEE special values: a finite rational, NaN, or a
signed infinity.  Only what `softmax_weights` needs is implemented, with the
IEEE semantics of the corresponding Rust operations. -/
inductive FP where
  | fin (q : ℚ)
  | nan
  | inf
  | ninf
deriving DecidableEq

/-- IEEE negation. -/
def FP.neg : FP → FP
  | .fin q => .fin (-q)
  | .nan => .nan
  | .inf => .ninf
  | .ninf => .inf

/-- IEEE addition: NaN propagates; `∞ + (−∞) = NaN`. -/
def FP.add : FP → FP → FP
  | .nan, _ => .nan
  | _, .nan => .nan
  | .inf, .ninf => .nan
  | .ninf, .inf => .nan
  | .inf, _ => .inf
  | _, .inf => .inf
  | .ninf, _ => .ninf
  | _, .ninf => .ninf
  | .fin a, .fin b => .fin (a + b)

/-- IEEE subtraction, as `a + (−b)`. -/
def FP.sub (a b : FP) : FP := FP.add a (FP.neg b)

/-- IEEE multiplication: NaN propagates; `±∞ · 0 = NaN`. -/
def FP.mul : FP → FP → FP
  | .nan, _ => .nan
  | _, .nan => .nan
  | .inf, .inf => .inf
  | .inf, .ninf => .ninf
  | .ninf, .inf => .ninf
  | .ninf, .ninf => .inf
  | .inf, .fin q => if q = 0 then .nan else if 0 < q then .inf else .ninf
  | .fin q, .inf => if q = 0 then .nan else if 0 < q then .inf else .ninf
  | .ninf, .fin q => if q = 0 then .nan else if 0 < q then .ninf else .inf
  | .fin q, .ninf => if q = 0 then .nan else if 0 < q then .ninf else .inf
  | .fin a, .fin b => .fin (a * b)

/-- IEEE division: NaN propagates; `∞/∞ = NaN`; `x/±∞ = 0`; `x/0` is `NaN`
when `x = 0`, a signed infinity otherwise. -/
def FP.div : FP → FP → FP
  | .nan, _ => .nan
  | _, .nan => .nan
  | .inf, .inf => .nan
  | .inf, .ninf => .nan
  | .ninf, .inf => .nan
  | .ninf, .ninf => .nan
  | .fin _, .inf => .fin 0
  | .fin _, .ninf => .fin 0
  | .inf, .fin q => if 0 ≤ q then .inf else .ninf
  | .ninf, .fin q => if 0 ≤ q then .ninf else .inf
  | .fin a, .fin b =>
    if b = 0 then (if a = 0 then .nan else if 0 < a then .inf else .ninf)
    else .fin (a / b)

/-- Rust `f64::max`: returns the other operand when one is NaN. -/
def FP.fmax : FP → FP → FP
  | .nan, b => b
  | a, .nan => a
  | .inf, _ => .inf
  | _, .inf => .inf
  | .ninf, b => b
  | a, .ninf => a
  | .fin a, .fin b => .fin (max a b)

/-- Rust `f64::min`: returns the other operand when one is NaN. -/
def FP.fmin : FP → FP → FP
  | .nan, b => b
  | a, .nan => a
  | .ninf, _ => .ninf
  | _, .ninf => .ninf
  | .inf, b => b
  | a, .inf => a
  | .fin a, .fin b => .fin (min a b)

/-- `f64::exp` on the `FP` carrier: `exp NaN = NaN`, `exp ∞ = ∞`,
`exp (−∞) = 0`; on finite inputs it defers to the abstract `rexp`. -/
def FP.fexp (rexp : ℚ → ℚ) : FP → FP
  | .fin q => .fin (rexp q)
  | .nan => .nan
  | .inf => .inf
  | .ninf => .fin 0

/-- `iter().sum::<f64>()`: fold `+` from `0.0`. -/
def FP.listSum (l : List FP) : FP := l.foldl FP.add (.fin 0)

/-- `capital.rs::softmax_weights` re-read over the `FP` carrier, keeping every
operation and fold of the source (the `f64::NEG_INFINITY` / `f64::INFINITY`
fold seeds are representable here).  The `temperature` and `min_weight`
parameters are finite in every use, so they stay rational. -/
def softmax_weights_fp (rexp : ℚ → ℚ) (scores : List FP)
    (temperature min_weight : ℚ) : List FP :=
  let n := scores.length
  if n = 0 then []
  else
    let max_score := scores.foldl FP.fmax .ninf
    let min_score := scores.foldl FP.fmin .inf
    let spread_scale := FP.fmax (FP.div (FP.sub max_score min_score) (.fin 40)) (.fin 1)
    let exps := scores.map (fun s =>
      FP.fexp rexp (FP.div (FP.sub s max_score) (FP.mul (.fin temperature) spread_scale)))
    let sum_exp := FP.listSum exps
    let raw_weights := exps.map (fun e => FP.div e sum_exp)
    let floor_total := min_weight * (n : ℚ)
    let weights :=
      if 0 < min_weight ∧ floor_total < 1
      then raw_weights.map (fun w => FP.add (.fin min_weight) (FP.mul (.fin (1 - floor_total)) w))
      else raw_weights
    let total := FP.listSum weights
    weights.map (fun w => FP.div w total)

-- ── Strategy interface and wire payloads (types.rs, runner.rs) ───────────────

/-- `types.rs::AfterSwapPayload`: the enriched after-swap context.  The eight
`competing_spot_prices` f32 slots are modelled as `Option ℚ`, `none` standing
for the NaN filler of unused slots. -/
structure AfterSwapPayload where
  tag : ℕ
  side : ℕ
  input_amount : ℕ
  output_amount : ℕ
  reserve_x : ℕ
  reserve_y : ℕ
  sim_step : ℕ
  epoch_step : ℕ
  epoch_number : ℕ
  n_strategies : ℕ
  strategy_index : ℕ
  flow_captured : ℚ
  capital_weight : ℚ
  competing_spot_prices : List (Option ℚ)
  storage : Storage

/-- `types.rs::EpochBoundaryPayload`. -/
structure EpochBoundaryPayload where
  tag : ℕ
  epoch_number : ℕ
  new_reserve_x : ℕ
  new_reserve_y : ℕ
  epoch_edge : ℚ
  cumulative_edge : ℚ
  capital_weight : ℚ
  storage : Storage

/-- A loaded strategy (`runner.rs::StrategyRunner`), abstracted to its three
entry points over typed payloads; the byte-level wire encoding of `runner.rs`
is bijective on these fields, so the typed view is the semantic content. -/
structure Strategy where
  name : String
  compute_swap : Bool → ℕ → ℕ → ℕ → Storage → ℕ
  after_swap : AfterSwapPayload → Storage → Storage
  epoch_boundary : EpochBoundaryPayload → Storage → Storage

/-- A strategy that does nothing (used as the out-of-bounds placeholder for
Rust's panicking indexing). -/
def dummyStrategy : Strategy :=
  { name := "", compute_swap := fun _ _ _ _ _ => 0,
    after_swap := fun _ st => st, epoch_boundary := fun _ st => st }

/-- `runner.rs::NormalizerRunner::compute_swap`: plain CPAMM with the sampled
fee. -/
def normalizer_compute_swap (fee_bps : ℕ) (is_buy : Bool) (input rx ry : ℕ) : ℕ :=
  if is_buy then cpamm_output input ry rx fee_bps
  else cpamm_output input rx ry fee_bps

-- ── Market process and randomness (market.rs) ────────────────────────────────

/-- `market.rs::MarketParams`. -/
structure MarketParams where
  sigma : ℚ
  lambda : ℚ
  order_size_mean : ℚ
  norm_fee_bps : ℕ
  norm_liquidity_mult : ℚ
deriving DecidableEq

/-- The deterministic counter-based randomness source: each sampling call of
the source consumes one counter position.  `exp` models `f64::exp`; `qdraw`
models an `f64` sample (`gen_range`, `StandardNormal`, `LogNormal`); `ndraw`
models an integer sample (`gen_range` on integers, the `Poisson` count);
`bdraw` models `gen_bool(0.5)`. -/
structure Oracles where
  exp : ℚ → ℚ
  qdraw : ℕ → ℚ
  ndraw : ℕ → ℕ
  bdraw : ℕ → Bool

/-- `MarketParams::sample`: five draws in source order; returns the params and
the advanced counter. -/
def MarketParams.sample (O : Oracles) (c : ℕ) : MarketParams × ℕ :=
  ({ sigma := O.qdraw c, lambda := O.qdraw (c + 1),
     order_size_mean := O.qdraw (c + 2), norm_fee_bps := O.ndraw (c + 3),
     norm_liquidity_mult := O.qdraw (c + 4) }, c + 5)

/-- `market.rs::gbm_step`: `price · exp(−σ²/2 + σ·Z)` with `Z` one draw. -/
def gbm_step (O : Oracles) (price sigma : ℚ) (c : ℕ) : ℚ × ℕ :=
  (price * O.exp (-(1 / 2) * sigma * sigma + sigma * O.qdraw c), c + 1)

/-- `market.rs::RetailOrder`. -/
structure RetailOrder where
  is_buy : Bool
  size_y : ℚ
deriving DecidableEq

/-- The per-order sampling loop of `generate_retail_orders` (one `gen_bool`
and one `LogNormal` draw per order). -/
def genOrders (O : Oracles) : ℕ → ℕ → List RetailOrder × ℕ
  | c, 0 => ([], c)
  | c, k + 1 =>
    let o : RetailOrder := { is_buy := O.bdraw c, size_y := O.qdraw (c + 1) }
    let r := genOrders O (c + 2) k
    (o :: r.1, r.2)

/-- `market.rs::generate_retail_orders`: a Poisson count draw, then one
direction and one size draw per order.  The `params` rates shape the sampled
distributions in the source; the drawn values themselves come from the
oracle. -/
def generate_retail_orders (O : Oracles) (_params : MarketParams) (c : ℕ) :
    List RetailOrder × ℕ :=
  genOrders O (c + 1) (O.ndraw c)

-- ── Simulation driver (sim.rs) ───────────────────────────────────────────────

/-- `sim.rs::StrategyResult`. -/
structure StrategyResult where
  name : String
  final_edge : ℚ
  epoch_summaries : List EpochSummary
  final_capital_weight : ℚ

/-- `sim.rs::SimResult`. -/
structure SimResult where
  strategies : List StrategyResult
  normalizer_edge : ℚ
  params : MarketParams

/-- The in-flight state of `run_simulation`'s main loop, together with the
trace of every `AfterSwapPayload` dispatched to a strategy so far. -/
structure SimState where
  params : MarketParams
  strat_amms : List AmmState
  norm_amm : AmmState
  fair_price : ℚ
  ctr : ℕ
  epoch_summaries : List (List EpochSummary)
  after_swap_trace : List AfterSwapPayload
  step : ℕ

/-- The competing-spot-prices slots of `sim.rs::dispatch_after_swap`: up to 8
peer strategy spots in index order (skipping the callee), then the normalizer
spot if a slot remains; `none` models the NaN filler. -/
def competingSlots (all_strat : List AmmState) (self_idx : ℕ) (norm : AmmState) :
    List (Option ℚ) :=
  let peers := ((all_strat.filter (fun s => s.strategy_index ≠ self_idx)).map
    (fun s => s.spot_price)).take 8
  let withNorm := if peers.length < 8 then peers ++ [norm.spot_price] else peers
  withNorm.map some ++ List.replicate (8 - withNorm.length) none

/-- `sim.rs::dispatch_after_swap`: build the enriched payload for a real trade
and invoke the strategy's after-swap hook.  Returns the payload and the
(possibly mutated) storage.  `total_n` is passed through exactly as at each
call site. -/
def dispatch_after_swap (runner : Strategy) (amm : AmmState) (is_buy : Bool)
    (input output sim_step epoch_step epoch_number : ℕ) (flow_captured : ℚ)
    (all_strat : List AmmState) (norm : AmmState) (total_n : ℕ) :
    AfterSwapPayload × Storage :=
  let payload : AfterSwapPayload :=
    { tag := 2, side := if is_buy then 0 else 1, input_amount := input,
      output_amount := output, reserve_x := amm.reserve_x,
      reserve_y := amm.reserve_y, sim_step := sim_step,
      epoch_step := epoch_step, epoch_number := epoch_number,
      n_strategies := total_n, strategy_index := amm.strategy_index,
      flow_captured := flow_captured, capital_weight := amm.capital_weight,
      competing_spot_prices := competingSlots all_strat amm.strategy_index norm,
      storage := amm.storage }
  (payload, runner.after_swap payload amm.storage)

/-- The body of the per-strategy arbitrage loop of `run_simulation` (step 4b):
snapshot the pools, search the optimal arb against pool `idx`, and on success
accrue edge, apply the trade, and dispatch `after_swap` with
`flow_captured = 0` and — exactly as in the source — `total_n = n_strat`
(the strategy count without the normalizer). -/
def arbOnePool (runners : List Strategy) (cfg : SimConfig) (fair : ℚ)
    (step : ℕ) (norm : AmmState)
    (acc : List AmmState × List AfterSwapPayload) (idx : ℕ) :
    List AmmState × List AfterSwapPayload :=
  let amms := acc.1
  let strat_snapshot := amms
  let runner := runners.getD idx dummyStrategy
  let amm := amms.getD idx dummyAmm
  let cs := fun b i rx ry => runner.compute_swap b i rx ry amm.storage
  match optimal_arb_trade amm fair cfg.arb_profit_floor cs with
  | none => acc
  | some (is_buy, arb_in, arb_out) =>
    let amm1 := amm.accrue_edge (if is_buy then arb_out else arb_in)
      (if is_buy then arb_in else arb_out) is_buy fair
    let rxy := apply_cpamm_trade amm1.reserve_x amm1.reserve_y is_buy arb_in arb_out
    let amm2 := { amm1 with reserve_x := rxy.1, reserve_y := rxy.2 }
    let pd := dispatch_after_swap runner amm2 is_buy arb_in arb_out step
      (step % cfg.epoch_len) (step / cfg.epoch_len) 0 strat_snapshot norm
      runners.length
    (amms.set idx { amm2 with storage := pd.2 }, acc.2 ++ [pd.1])

/-- `sim.rs::arb_normalizer`: inline golden-section arbitrage against the
normalizer (plain CPAMM, no dispatch). -/
def arb_normalizer (norm : AmmState) (fee_bps : ℕ) (fair floor : ℚ) : AmmState :=
  let spot := norm.spot_price
  let is_buy := fair < spot
  let max_in := (if is_buy then (norm.reserve_y : ℚ) else (norm.reserve_x : ℚ))
    * (9 / 10) / SCALEQ
  let profit_fn := fun input_f : ℚ =>
    let input_scaled := toU64 (input_f * SCALEQ)
    if input_scaled = 0 then 0
    else
      let out := normalizer_compute_swap fee_bps is_buy input_scaled
        norm.reserve_x norm.reserve_y
      let out_f := (out : ℚ) / SCALEQ
      if is_buy then out_f * fair - input_f else out_f - input_f * fair
  let bp := golden_section_max profit_fn 0 max_in 50
  if bp.2 < floor ∨ bp.1 < 1 / SCALEQ then norm
  else
    let input_scaled := toU64 (bp.1 * SCALEQ)
    let out_scaled := normalizer_compute_swap fee_bps is_buy input_scaled
      norm.reserve_x norm.reserve_y
    let norm1 := norm.accrue_edge (if is_buy then out_scaled else input_scaled)
      (if is_buy then input_scaled else out_scaled) is_buy fair
    let rxy := apply_cpamm_trade norm1.reserve_x norm1.reserve_y is_buy
      input_scaled out_scaled
    { norm1 with reserve_x := rxy.1, reserve_y := rxy.2 }

/-- The per-pool application loop of `sim.rs::route_retail_order` (accrue,
apply, dispatch with `flow_captured = input/total` and `total_n = N + 1`;
the normalizer branch only accrues and applies). -/
def retailApplyOne (runners : List Strategy) (cfg : SimConfig) (fair : ℚ)
    (step : ℕ) (is_buy : Bool) (total_n total_input_scaled : ℕ)
    (allocations : List (ℕ × ℕ))
    (acc : List AmmState × AmmState × List AfterSwapPayload) (amm_idx : ℕ) :
    List AmmState × AmmState × List AfterSwapPayload :=
  let strat_amms := acc.1
  let norm_amm := acc.2.1
  let al := allocations.getD amm_idx (0, 0)
  let input_scaled := al.1
  let output_scaled := al.2
  if input_scaled = 0 then acc
  else
    let flow_captured := (input_scaled : ℚ) / ((max total_input_scaled 1 : ℕ) : ℚ)
    if amm_idx < runners.length then
      let strat_snapshot := strat_amms
      let amm := strat_amms.getD amm_idx dummyAmm
      let amm1 := amm.accrue_edge (if is_buy then output_scaled else input_scaled)
        (if is_buy then input_scaled else output_scaled) is_buy fair
      let rxy := apply_cpamm_trade amm1.reserve_x amm1.reserve_y is_buy
        input_scaled output_scaled
      let amm2 := { amm1 with reserve_x := rxy.1, reserve_y := rxy.2 }
      let pd := dispatch_after_swap (runners.getD amm_idx dummyStrategy) amm2
        is_buy input_scaled output_scaled step (step % cfg.epoch_len)
        (step / cfg.epoch_len) flow_captured strat_snapshot norm_amm total_n
      (strat_amms.set amm_idx { amm2 with storage := pd.2 }, norm_amm,
        acc.2.2 ++ [pd.1])
    else
      let norm1 := norm_amm.accrue_edge
        (if is_buy then output_scaled else input_scaled)
        (if is_buy then input_scaled else output_scaled) is_buy fair
      let rxy := apply_cpamm_trade norm1.reserve_x norm1.reserve_y is_buy
        input_scaled output_scaled
      (strat_amms, { norm1 with reserve_x := rxy.1, reserve_y := rxy.2 }, acc.2.2)

/-- `sim.rs::route_retail_order`: route one retail order over the N strategy
pools plus the normalizer with `route_order_n_amms`, then apply the
allocations pool by pool.  Returns the updated pools and the dispatched
payloads, in order. -/
def route_retail_order (runners : List Strategy) (cfg : SimConfig)
    (is_buy : Bool) (size_y fair : ℚ) (step : ℕ) (strat_amms : List AmmState)
    (norm_amm : AmmState) (norm_fee : ℕ) :
    List AmmState × AmmState × List AfterSwapPayload :=
  let n_strat := strat_amms.length
  let all_amm_refs := strat_amms ++ [norm_amm]
  let total_n := all_amm_refs.length
  let cs := fun i b inp rx ry =>
    if i < n_strat
    then (runners.getD i dummyStrategy).compute_swap b inp rx ry
      (strat_amms.getD i dummyAmm).storage
    else normalizer_compute_swap norm_fee b inp rx ry
  let total_input := if is_buy then size_y else size_y / fair
  let routing := route_order_n_amms cs all_amm_refs is_buy total_input
  let total_input_scaled := toU64 (total_input * SCALEQ)
  (List.range total_n).foldl
    (retailApplyOne runners cfg fair step is_buy total_n total_input_scaled
      routing.allocations)
    (strat_amms, norm_amm, [])

/-- The epoch-boundary notification loop of `run_simulation` (step 4d):
`runners.zip(strat_amms)`, building each `EpochBoundaryPayload` and letting
the strategy mutate its storage. -/
def epochNotify (runners : List Strategy) (summaries : List EpochSummary)
    (epoch_number : ℕ) (amms : List AmmState) : List AmmState :=
  mapWithIdx (fun idx amm =>
    if idx < runners.length then
      let payload : EpochBoundaryPayload :=
        { tag := 5, epoch_number := epoch_number,
          new_reserve_x := amm.reserve_x, new_reserve_y := amm.reserve_y,
          epoch_edge := (summaries.getD idx dummySummary).edge,
          cumulative_edge := amm.cumulative_edge,
          capital_weight := amm.capital_weight, storage := amm.storage }
      { amm with storage :=
          ((runners.getD idx dummyStrategy).epoch_boundary payload amm.storage) }
    else amm) amms

/-- Steps 4a-4c of the main loop of `sim.rs::run_simulation`: GBM price step,
per-strategy arbitrage (in index order), normalizer arbitrage, retail order
generation and routing.  Leaves `step` to be bumped by `simStep`. -/
def preEpochPhase (O : Oracles) (runners : List Strategy) (cfg : SimConfig)
    (s : SimState) : SimState :=
  let g := gbm_step O s.fair_price s.params.sigma s.ctr
  let fair := g.1
  let ab := (List.range runners.length).foldl
    (arbOnePool runners cfg fair s.step s.norm_amm) (s.strat_amms, [])
  let norm1 := arb_normalizer s.norm_amm s.params.norm_fee_bps fair
    cfg.arb_profit_floor
  let go := generate_retail_orders O s.params g.2
  let r := go.1.foldl
    (fun (acc : List AmmState × AmmState × List AfterSwapPayload) o =>
      let t := route_retail_order runners cfg o.is_buy o.size_y fair s.step
        acc.1 acc.2.1 s.params.norm_fee_bps
      (t.1, t.2.1, acc.2.2 ++ t.2.2))
    (ab.1, norm1, ab.2)
  { s with strat_amms := r.1, norm_amm := r.2.1, fair_price := fair,
           ctr := go.2, after_swap_trace := s.after_swap_trace ++ r.2.2 }

/-- Step 4d of the main loop: when `(step+1)` closes an epoch that is not the
final step, rebalance the strategy pools and dispatch the epoch-boundary
hooks; otherwise leave the state alone.  The block reads and writes only the
strategy pools and the per-strategy summaries — exactly the source, which
never mentions `norm_amm` here. -/
def epochPhase (O : Oracles) (runners : List Strategy) (cfg : SimConfig)
    (s : SimState) : SimState :=
  let at_epoch_end := (s.step + 1) % cfg.epoch_len = 0
  let last_step := s.step = cfg.total_steps - 1
  if at_epoch_end ∧ ¬last_step then
    let epoch_number := (s.step + 1) / cfg.epoch_len
    let rb := rebalance_capital O.exp s.strat_amms cfg (epoch_number - 1)
    { s with strat_amms := epochNotify runners rb.1 (epoch_number - 1) rb.2,
             epoch_summaries := mapWithIdx (fun i l =>
               if i < rb.1.length then l ++ [rb.1.getD i dummySummary] else l)
               s.epoch_summaries }
  else s

/-- One iteration of the main loop of `sim.rs::run_simulation` (steps 4a-4d). -/
def simStep (O : Oracles) (runners : List Strategy) (cfg : SimConfig)
    (s : SimState) : SimState :=
  let s' := epochPhase O runners cfg (preEpochPhase O runners cfg s)
  { s' with step := s.step + 1 }

/-- Steps 1-3 of `run_simulation`: sample the market parameters, initialise
the strategy pools with equal capital weights and the normalizer with its
sampled liquidity multiplier, and seed the fair price at
`base_reserve_y / base_reserve_x`. -/
def initState (O : Oracles) (runners : List Strategy) (cfg : SimConfig) :
    SimState :=
  let ps := MarketParams.sample O 0
  let n_strat := runners.length
  let strat_amms := mapWithIdx (fun i r =>
    { AmmState.new cfg.base_reserve_x cfg.base_reserve_y i r.name with
        capital_weight := 1 / (n_strat : ℚ) }) runners
  let norm_rx := toU64 ((cfg.base_reserve_x : ℚ) * ps.1.norm_liquidity_mult)
  let norm_ry := toU64 ((cfg.base_reserve_y : ℚ) * ps.1.norm_liquidity_mult)
  { params := ps.1, strat_amms := strat_amms,
    norm_amm := AmmState.new norm_rx norm_ry n_strat ("Normalizer"),
    fair_price := (cfg.base_reserve_y : ℚ) / (cfg.base_reserve_x : ℚ),
    ctr := ps.2, epoch_summaries := List.replicate n_strat [],
    after_swap_trace := [], step := 0 }

/-- Iterate `simStep` (the `for step in 0..total_steps` loop). -/
def iterSteps (O : Oracles) (runners : List Strategy) (cfg : SimConfig) :
    ℕ → SimState → SimState
  | 0, s => s
  | n + 1, s => iterSteps O runners cfg n (simStep O runners cfg s)

/-- Step 5 of `run_simulation`: package the final state. -/
def resultOf (s : SimState) : SimResult :=
  { strategies := mapWithIdx (fun i amm =>
      { name := amm.name, final_edge := amm.cumulative_edge,
        epoch_summaries := s.epoch_summaries.getD i [],
        final_capital_weight := amm.capital_weight }) s.strat_amms,
    normalizer_edge := s.norm_amm.cumulative_edge, params := s.params }

/-- `sim.rs::run_simulation` as a function of the oracle, the strategies and
the config. -/
def run_simulation (O : Oracles) (runners : List Strategy) (cfg : SimConfig) :
    SimResult :=
  resultOf (iterSteps O runners cfg cfg.total_steps (initState O runners cfg))

/-- Small-step view of the main loop: `StepsTo f s n t` holds when `t` is
reached from `s` by exactly `n` iterations of `f`. -/
inductive StepsTo (f : SimState → SimState) : SimState → ℕ → SimState → Prop where
  | zero (s : SimState) : StepsTo f s 0 s
  | succ (s : SimState) (n : ℕ) (t : SimState) :
      StepsTo f (f s) n t → StepsTo f s (n + 1) t

/-- `RunSim O runners cfg r`: an execution of `run_simulation` from the seeded
initial state over `total_steps` loop iterations delivers the result `r`. -/
def RunSim (O : Oracles) (runners : List Strategy) (cfg : SimConfig)
    (r : SimResult) : Prop :=
  ∃ s, StepsTo (simStep O runners cfg) (initState O runners cfg)
    cfg.total_steps s ∧ r = resultOf s

-- ── Concrete instances used by counterexamples and witnesses ─────────────────

/-- A small pool with scaled reserves `(10, 10)`. -/
def tinyAmm : AmmState := AmmState.new 10 10 0 ("tiny")

/-- A quote that returns `1000 ×` its input — monotone and concave is not
required of it; the arbitrage solver quantifies over arbitrary strategy
quotes. -/
def linQuote : Bool → ℕ → ℕ → ℕ → ℕ := fun _ i _ _ => i * 1000

/-- A quote that returns `0` always. -/
def zeroQuote : ℕ → Bool → ℕ → ℕ → ℕ → ℕ := fun _ _ _ _ _ => 0

/-- One pool with one-unit reserves, for the single-pool router branch. -/
def unitAmm : AmmState := AmmState.new SCALE SCALE 0 ("unit")

/-- A degenerate randomness source: exponentials are 1, every draw is 0,
Poisson counts are 0, coin flips are false. -/
def oracleZero : Oracles :=
  { exp := fun _ => 1, qdraw := fun _ => 0, ndraw := fun _ => 0,
    bdraw := fun _ => false }

/-- A zero-step configuration (the loop body never runs). -/
def cfg0 : SimConfig :=
  { total_steps := 0, epoch_len := 10, seed := 0, base_reserve_x := 20,
    base_reserve_y := 10, lambda := 2, min_capital_weight := 1/50,
    softmax_temperature := 1, arb_profit_floor := 1/100 }

/-- A strategy whose quote is `1000 × input` and whose hooks do nothing. -/
def linStrategy : Strategy :=
  { name := "lin", compute_swap := fun _ i _ _ _ => i * 1000,
    after_swap := fun _ st => st, epoch_boundary := fun _ st => st }

/-- A one-step configuration with base reserves `(20, 10)` (spot `1/2`). -/
def cfg9 : SimConfig :=
  { total_steps := 1, epoch_len := 10, seed := 0, base_reserve_x := 20,
    base_reserve_y := 10, lambda := 2, min_capital_weight := 1/50,
    softmax_temperature := 1, arb_profit_floor := 1/100 }

/-!
Theorems

Everything below is proved about the embedding above; each claim of the
specification gets one theorem (with a witness instance when it carries
hypotheses), and a counterexample theorem where the claim as stated fails.
-/

-- ── Generic helper lemmas ────────────────────────────────────────────────────

theorem toU64_char (q : ℚ) : toU64 q = (min (max ⌊q⌋ 0) ((U64MAX : ℕ) : ℤ)).toNat := by
  rw [toU64, Rat.floor_def]
  omega

theorem toU128_char (q : ℚ) : toU128 q = (min (max ⌊q⌋ 0) ((U128MAX : ℕ) : ℤ)).toNat := by
  rw [toU128, Rat.floor_def]
  omega

theorem toU64_le (q : ℚ) (m : ℕ) (h : q ≤ (m : ℚ)) : toU64 q ≤ m := by
  have h1 : ⌊q⌋ ≤ (m : ℤ) := by
    calc ⌊q⌋ ≤ ⌊(m : ℚ)⌋ := Int.floor_le_floor h
      _ = (m : ℤ) := Int.floor_natCast m
  rw [toU64_char]
  omega

theorem toU128_le (q : ℚ) (m : ℕ) (h : q ≤ (m : ℚ)) : toU128 q ≤ m := by
  have h1 : ⌊q⌋ ≤ (m : ℤ) := by
    calc ⌊q⌋ ≤ ⌊(m : ℚ)⌋ := Int.floor_le_floor h
      _ = (m : ℤ) := Int.floor_natCast m
  rw [toU128_char]
  omega

theorem toU64_eq_floor_toNat (q : ℚ) (hq : q < 2 ^ 64) :
    toU64 q = (max ⌊q⌋ 0).toNat := by
  have h1 : ⌊q⌋ < (2 : ℤ) ^ 64 := by
    have h2 : (⌊q⌋ : ℚ) < ((2 : ℤ) ^ 64 : ℤ) := by
      calc (⌊q⌋ : ℚ) ≤ q := Int.floor_le q
        _ < 2 ^ 64 := hq
        _ = (((2 : ℤ) ^ 64 : ℤ) : ℚ) := by norm_num
    exact_mod_cast h2
  have h3 : ((U64MAX : ℕ) : ℤ) = 2 ^ 64 - 1 := by norm_num [U64MAX]
  rw [toU64_char]
  omega

theorem toU64_ge_one (q : ℚ) (h : 1 ≤ q) : 1 ≤ toU64 q := by
  have h1 : (1 : ℤ) ≤ ⌊q⌋ := Int.le_floor.mpr (by exact_mod_cast h)
  have h2 : (1 : ℕ) ≤ U64MAX := by norm_num [U64MAX]
  rw [toU64_char]
  omega

theorem list_sum_pos (l : List ℚ) (h : ∀ x ∈ l, 0 < x) (hne : l ≠ []) :
    0 < l.sum := by
  induction l with
  | nil => exact absurd rfl hne
  | cons a t ih =>
    rw [List.sum_cons]
    rcases t with _ | ⟨b, u⟩
    · simpa using h a (by simp)
    · have ht : 0 < (b :: u).sum := ih (fun x hx => h x (by simp [hx])) (by simp)
      have ha : 0 < a := h a (by simp)
      linarith

theorem list_sum_map_div (l : List ℚ) (c : ℚ) :
    (l.map (fun x => x / c)).sum = l.sum / c := by
  induction l with
  | nil => simp
  | cons a t ih => simp [ih, add_div]

theorem list_sum_map_affine (l : List ℚ) (a b : ℚ) :
    (l.map (fun x => a + b * x)).sum = (l.length : ℚ) * a + b * l.sum := by
  induction l with
  | nil => simp
  | cons x t ih =>
    simp only [List.map_cons, List.sum_cons, List.length_cons, ih]
    push_cast
    ring

theorem mapWithIdxFrom_length (f : ℕ → α → β) (k : ℕ) (l : List α) :
    (mapWithIdxFrom f k l).length = l.length := by
  induction l generalizing k with
  | nil => rfl
  | cons a t ih => simp [mapWithIdxFrom, ih]

theorem mapWithIdx_length (f : ℕ → α → β) (l : List α) :
    (mapWithIdx f l).length = l.length := mapWithIdxFrom_length f 0 l

theorem mapWithIdxFrom_mem {f : ℕ → α → β} {l : List α} {k : ℕ} {b : β}
    (h : b ∈ mapWithIdxFrom f k l) :
    ∃ i, ∃ hi : i < l.length, b = f (k + i) (l.get ⟨i, hi⟩) := by
  induction l generalizing k with
  | nil => simp [mapWithIdxFrom] at h
  | cons a t ih =>
    simp only [mapWithIdxFrom, List.mem_cons] at h
    rcases h with h | h
    · exact ⟨0, by simp, by simpa using h⟩
    · obtain ⟨i, hi, hb⟩ := ih h
      exact ⟨i + 1, by simpa using hi, by simpa [Nat.add_assoc, Nat.add_comm 1 i] using hb⟩

theorem mapWithIdx_mem {f : ℕ → α → β} {l : List α} {b : β}
    (h : b ∈ mapWithIdx f l) :
    ∃ i, ∃ hi : i < l.length, b = f i (l.get ⟨i, hi⟩) := by
  obtain ⟨i, hi, hb⟩ := mapWithIdxFrom_mem h
  exact ⟨i, hi, by simpa using hb⟩

-- ── Softmax lemmas (capital.rs) ──────────────────────────────────────────────

theorem softmax_weights_eq_of_ne_nil (rexp : ℚ → ℚ) (scores : List ℚ)
    (T mw : ℚ) (hne : scores ≠ []) :
    softmax_weights rexp scores T mw =
      (let max_score := listMaxD scores
       let spread_scale := max ((max_score - listMinD scores) / 40) 1
       let exps := scores.map (fun s => rexp ((s - max_score) / (T * spread_scale)))
       let raw_weights := exps.map (fun e => e / exps.sum)
       let floor_total := mw * (scores.length : ℚ)
       let weights :=
         if 0 < mw ∧ floor_total < 1
         then raw_weights.map (fun w => mw + (1 - floor_total) * w)
         else raw_weights
       weights.map (fun w => w / weights.sum)) := by
  rw [softmax_weights]
  have hn : ¬ scores.length = 0 := by simpa using hne
  simp only [hn, if_false]

theorem softmax_core (rexp : ℚ → ℚ) (scores : List ℚ) (T mw : ℚ)
    (hexp : ∀ x, 0 < rexp x) (hne : scores ≠ []) (hmw : 0 < mw)
    (hfloor : mw * (scores.length : ℚ) < 1) :
    (softmax_weights rexp scores T mw).sum = 1
    ∧ (∀ w ∈ softmax_weights rexp scores T mw,
        mw ≤ w ∧ w ≤ 1 - ((scores.length : ℚ) - 1) * mw)
    ∧ softmax_weights rexp scores T mw
      = scores.map (fun s =>
          mw + (1 - mw * (scores.length : ℚ)) *
            (rexp ((s - listMaxD scores) /
              (T * max ((listMaxD scores - listMinD scores) / 40) 1) ) /
            (scores.map (fun t =>
              rexp ((t - listMaxD scores) /
                (T * max ((listMaxD scores - listMinD scores) / 40) 1)))).sum)) := by
  rw [softmax_weights_eq_of_ne_nil rexp scores T mw hne]
  simp only []
  set M := listMaxD scores with hM
  set sp := max ((M - listMinD scores) / 40) 1 with hsp
  set exps := scores.map (fun s => rexp ((s - M) / (T * sp))) with hexps
  have hexps_pos : ∀ e ∈ exps, 0 < e := by
    intro e he
    rw [hexps] at he
    obtain ⟨s, _, rfl⟩ := List.mem_map.mp he
    exact hexp _
  have hexps_ne : exps ≠ [] := by
    rw [hexps]
    simpa using hne
  have hS : 0 < exps.sum := list_sum_pos exps hexps_pos hexps_ne
  have hlen : exps.length = scores.length := by rw [hexps]; simp
  set S := exps.sum with hSdef
  set raw := exps.map (fun e => e / S) with hraw
  have hraw_sum : raw.sum = 1 := by
    rw [hraw, list_sum_map_div, ← hSdef, div_self (ne_of_gt hS)]
  have hraw_mem : ∀ w ∈ raw, 0 < w ∧ w ≤ 1 := by
    intro w hw
    rw [hraw] at hw
    obtain ⟨e, he, rfl⟩ := List.mem_map.mp hw
    constructor
    · exact div_pos (hexps_pos e he) hS
    · rw [div_le_one hS]
      exact List.single_le_sum (fun x hx => le_of_lt (hexps_pos x hx)) e he
  have hcond : (0 < mw ∧ mw * (scores.length : ℚ) < 1) := ⟨hmw, hfloor⟩
  simp only [if_pos hcond]
  set r := 1 - mw * (scores.length : ℚ) with hr
  have hrpos : 0 < r := by rw [hr]; linarith
  set wts := raw.map (fun w => mw + r * w) with hwts
  have hwts_sum : wts.sum = 1 := by
    rw [hwts, list_sum_map_affine, hraw_sum]
    have : (raw.length : ℚ) = (scores.length : ℚ) := by
      rw [hraw]; simp [hlen]
    rw [this, hr]
    ring
  rw [hwts_sum]
  simp only [div_one, List.map_id']
  refine ⟨hwts_sum, ?_, ?_⟩
  · intro w hw
    rw [hwts] at hw
    obtain ⟨v, hv, rfl⟩ := List.mem_map.mp hw
    obtain ⟨hv0, hv1⟩ := hraw_mem v hv
    constructor
    · nlinarith
    · have : mw + r * v ≤ mw + r := by nlinarith
      have hcast : 0 ≤ (scores.length : ℚ) - 1 := by
        have : 1 ≤ scores.length := by
          cases scores with
          | nil => exact absurd rfl hne
          | cons a t => simp
        have : (1 : ℚ) ≤ (scores.length : ℚ) := by exact_mod_cast this
        linarith
      rw [hr] at this ⊢
      nlinarith
  · rw [hwts, hraw, hexps]
    simp only [List.map_map]
    rfl

theorem softmax_bounds (rexp : ℚ → ℚ) (scores : List ℚ) (T mw : ℚ)
    (hexp : ∀ x, 0 < rexp x) :
    ∀ w ∈ softmax_weights rexp scores T mw, 0 ≤ w ∧ w ≤ 1 := by
  intro w hw
  have hne : scores ≠ [] := by
    intro h
    rw [h, softmax_weights] at hw
    simp at hw
  by_cases hcond : 0 < mw ∧ mw * (scores.length : ℚ) < 1
  · obtain ⟨hsum, hmem, _⟩ := softmax_core rexp scores T mw hexp hne hcond.1 hcond.2
    obtain ⟨h1, h2⟩ := hmem w hw
    have hcast : 0 ≤ (scores.length : ℚ) - 1 := by
      have : 1 ≤ scores.length := by
        cases scores with
        | nil => exact absurd rfl hne
        | cons a t => simp
      have : (1 : ℚ) ≤ (scores.length : ℚ) := by exact_mod_cast this
      linarith
    constructor
    · linarith [hcond.1]
    · nlinarith [hcond.1]
  · rw [softmax_weights_eq_of_ne_nil rexp scores T mw hne] at hw
    simp only [if_neg hcond] at hw
    set M := listMaxD scores with hM
    set sp := max ((M - listMinD scores) / 40) 1 with hsp
    set exps := scores.map (fun s => rexp ((s - M) / (T * sp))) with hexps
    have hexps_pos : ∀ e ∈ exps, 0 < e := by
      intro e he
      rw [hexps] at he
      obtain ⟨s, _, rfl⟩ := List.mem_map.mp he
      exact hexp _
    have hexps_ne : exps ≠ [] := by rw [hexps]; simpa using hne
    have hS : 0 < exps.sum := list_sum_pos exps hexps_pos hexps_ne
    set raw := exps.map (fun e => e / exps.sum) with hraw
    have hraw_sum : raw.sum = 1 := by
      rw [hraw, list_sum_map_div, div_self (ne_of_gt hS)]
    rw [hraw_sum] at hw
    simp only [div_one, List.map_id'] at hw
    rw [hraw] at hw
    obtain ⟨e, he, rfl⟩ := List.mem_map.mp hw
    constructor
    · exact le_of_lt (div_pos (hexps_pos e he) hS)
    · rw [div_le_one hS]
      exact List.single_le_sum (fun x hx => le_of_lt (hexps_pos x hx)) e he

-- ── C7: cpamm_output zero cases ──────────────────────────────────────────────

/-- C7 (amended): `cpamm_output` returns 0 whenever the input is 0 or the
output-side reserve is 0; with a zero input-side reserve it returns 0 only
when the fee-truncated effective input is also 0 (otherwise it pays out
`reserve_out`, see the counterexample). -/
theorem C7_cpamm_output_zero_cases (input ri ro fee : ℕ) (_hfee : fee ≤ 10000) :
    (input = 0 → cpamm_output input ri ro fee = 0)
    ∧ (ro = 0 → cpamm_output input ri ro fee = 0)
    ∧ (ri = 0 → input * (10000 - fee) / 10000 = 0 →
        cpamm_output input ri ro fee = 0) := by
  refine ⟨?_, ?_, ?_⟩
  · intro h
    rw [cpamm_output, h]
    simp
  · intro h
    rw [cpamm_output, h]
    split
    · rfl
    · simp
  · intro h he
    rw [cpamm_output, h, he]
    simp

/-- C7 counterexample: with `input = 10000`, `reserve_in = 0`,
`reserve_out = 5`, fee `0`, the function returns `reserve_out = 5`, not 0 —
the claim's `reserve_in = 0 → 0` case is false. -/
theorem C7_counterexample : ¬ (cpamm_output 10000 0 5 0 = 0) := by decide

/-- C7 witness: the amended theorem instantiated at
`input = 0, ri = 7, ro = 5, fee = 30`. -/
theorem C7_witness :
    ((0 : ℕ) = 0 → cpamm_output 0 7 5 30 = 0)
    ∧ ((5 : ℕ) = 0 → cpamm_output 0 7 5 30 = 0)
    ∧ ((7 : ℕ) = 0 → 0 * (10000 - 30) / 10000 = 0 →
        cpamm_output 0 7 5 30 = 0) :=
  C7_cpamm_output_zero_cases 0 7 5 30 (by norm_num)

-- ── C2: the reserve ≥ 1 invariant ────────────────────────────────────────────

/-- C2 counterexample: `apply_cpamm_trade` saturates reserves at 0, not 1.
Starting from reserves `(5, 5) ≥ (1, 1)`, a buy trade whose output `10`
exceeds `reserve_x` leaves `reserve_x = 0`, violating `reserve_x ≥ 1`. -/
theorem C2_counterexample :
    ¬ (1 ≤ (apply_cpamm_trade 5 5 true 1 10).1
       ∧ 1 ≤ (apply_cpamm_trade 5 5 true 1 10).2) := by decide

/-- C2 (amended): `apply_cpamm_trade` preserves `reserve ≥ 1` only when the
output is strictly below the output-side reserve (reserves saturate at 0, not
1, on over-large outputs); `rebalance_capital` re-establishes
`reserve_x ≥ 1 ∧ reserve_y ≥ 1` whenever the exponential is positive and the
total Y capital `2·Σ reserve_y` fits below `2^65` (so the `u128 → u64`
narrowing of the new reserve cannot wrap). -/
theorem C2_reserve_invariant_amended :
    (∀ (rx ry : ℕ) (is_buy : Bool) (input output : ℕ),
      1 ≤ rx → 1 ≤ ry → output < (if is_buy then rx else ry) →
      1 ≤ (apply_cpamm_trade rx ry is_buy input output).1
      ∧ 1 ≤ (apply_cpamm_trade rx ry is_buy input output).2)
    ∧ (∀ (rexp : ℚ → ℚ) (amms : List AmmState) (cfg : SimConfig) (ep : ℕ),
      (∀ x, 0 < rexp x) →
      (amms.map (fun a => a.reserve_y * 2)).sum < 2 ^ 65 →
      ∀ a ∈ (rebalance_capital rexp amms cfg ep).2,
        1 ≤ a.reserve_x ∧ 1 ≤ a.reserve_y) := by
  constructor
  · intro rx ry is_buy input output hrx hry hout
    have hM : 1 ≤ U64MAX := by norm_num [U64MAX]
    cases is_buy with
    | true =>
      simp only [if_true] at hout
      rw [apply_cpamm_trade]
      simp only [if_true, satAdd64]
      exact ⟨by omega, by omega⟩
    | false =>
      simp at hout
      rw [apply_cpamm_trade]
      simp only [satAdd64]
      norm_num
      exact ⟨by omega, by omega⟩
  · intro rexp amms cfg ep hexp hcap a ha
    rw [rebalance_capital] at ha
    obtain ⟨i, hi, rfl⟩ := mapWithIdx_mem ha
    set scores := (amms.map (fun amm =>
      ({ epoch_number := ep, edge := amm.epoch_edge,
         trade_count := amm.epoch_trade_count,
         arb_losses := min 0 amm.epoch_edge,
         retail_gains := max 0 amm.epoch_edge,
         risk_adjusted_score := risk_adjusted_score amm.epoch_edge cfg.lambda }
        : EpochSummary))).map (fun s => s.risk_adjusted_score) with hscores
    set wts := softmax_weights rexp scores cfg.softmax_temperature
      cfg.min_capital_weight with hwts
    set w := wts.getD i 0 with hw
    have hwb : 0 ≤ w ∧ w ≤ 1 := by
      rcases lt_or_le i wts.length with hlt | hge
      · have : w ∈ wts := by
          rw [hw, List.getD_eq_getElem _ _ hlt]
          exact List.getElem_mem _
        exact softmax_bounds rexp scores _ _ hexp w this
      · rw [hw, List.getD_eq_default _ _ hge]
        norm_num
    set totc := (amms.map (fun a => a.reserve_y * 2)).sum with htotc
    have htarget : toU128 ((totc : ℚ) * w) ≤ totc := by
      apply toU128_le
      nlinarith [hwb.1, hwb.2, Nat.cast_nonneg (α := ℚ) totc]
    set target := toU128 ((totc : ℚ) * w) with htargetdef
    have hSCALE : SCALE < 2 ^ 64 := by norm_num [SCALE]
    have hry : (max (target / 2) SCALE) % 2 ^ 64 = max (target / 2) SCALE := by
      apply Nat.mod_eq_of_lt
      have h2 : target / 2 < 2 ^ 64 := by omega
      omega
    constructor
    · simp only []
      apply toU64_ge_one
      exact le_max_right _ _
    · simp only [hry]
      have h1 : 1 ≤ SCALE := by norm_num [SCALE]
      omega

/-- C2 witness: the amended invariant at a concrete trade
(`(5,5)`, buy, output `3 < 5`) and a concrete one-pool rebalance. -/
theorem C2_witness :
    (1 ≤ (apply_cpamm_trade 5 5 true 1 3).1
      ∧ 1 ≤ (apply_cpamm_trade 5 5 true 1 3).2)
    ∧ (∀ a ∈ (rebalance_capital (fun _ => 1) [unitAmm]
        { total_steps := 10, epoch_len := 5, seed := 0,
          base_reserve_x := SCALE, base_reserve_y := SCALE, lambda := 2,
          min_capital_weight := 1/50, softmax_temperature := 1,
          arb_profit_floor := 1/100 } 0).2,
        1 ≤ a.reserve_x ∧ 1 ≤ a.reserve_y) :=
  ⟨(C2_reserve_invariant_amended.1 5 5 true 1 3 (by norm_num) (by norm_num)
      (by norm_num)),
   (C2_reserve_invariant_amended.2 (fun _ => 1) [unitAmm] _ 0
      (fun _ => one_pos)
      (by norm_num [unitAmm, AmmState.new, SCALE]))⟩

theorem mapWithIdxFrom_getD (f : ℕ → α → β) (k : ℕ) (l : List α) (i : ℕ)
    (hi : i < l.length) (d : β) :
    (mapWithIdxFrom f k l).getD i d = f (k + i) (l.get ⟨i, hi⟩) := by
  induction l generalizing k i with
  | nil => simp at hi
  | cons a t ih =>
    cases i with
    | zero => simp [mapWithIdxFrom]
    | succ j =>
      have hj : j < t.length := by simpa using hi
      simp only [mapWithIdxFrom, List.getD_cons_succ]
      rw [ih (k + 1) j hj]
      congr 1
      omega

theorem mapWithIdx_getD (f : ℕ → α → β) (l : List α) (i : ℕ)
    (hi : i < l.length) (d : β) :
    (mapWithIdx f l).getD i d = f i (l.get ⟨i, hi⟩) := by
  rw [mapWithIdx, mapWithIdxFrom_getD f 0 l i hi d]
  simp

-- ── C6: rebalance_capital resets epoch accumulators, preserves the rest ──────

/-- C6: after `rebalance_capital`, every pool has `epoch_edge = 0` and
`epoch_trade_count = 0`, while `cumulative_edge`, `storage`,
`strategy_index` and `name` are exactly their pre-call values. -/
theorem C6_rebalance_resets_and_preserves (rexp : ℚ → ℚ) (amms : List AmmState)
    (cfg : SimConfig) (ep : ℕ) (i : ℕ) (hi : i < amms.length) :
    ((rebalance_capital rexp amms cfg ep).2.getD i dummyAmm).epoch_edge = 0
    ∧ ((rebalance_capital rexp amms cfg ep).2.getD i dummyAmm).epoch_trade_count = 0
    ∧ ((rebalance_capital rexp amms cfg ep).2.getD i dummyAmm).cumulative_edge
        = (amms.getD i dummyAmm).cumulative_edge
    ∧ ((rebalance_capital rexp amms cfg ep).2.getD i dummyAmm).storage
        = (amms.getD i dummyAmm).storage
    ∧ ((rebalance_capital rexp amms cfg ep).2.getD i dummyAmm).strategy_index
        = (amms.getD i dummyAmm).strategy_index
    ∧ ((rebalance_capital rexp amms cfg ep).2.getD i dummyAmm).name
        = (amms.getD i dummyAmm).name := by
  rw [rebalance_capital]
  simp only [mapWithIdx_getD _ amms i hi dummyAmm]
  rw [List.getD_eq_getElem amms dummyAmm hi]
  simp [List.get_eq_getElem]

/-- C6 witness: the frame theorem at a concrete one-pool state. -/
theorem C6_witness :
    ((rebalance_capital (fun _ => 1) [tinyAmm]
        { total_steps := 10, epoch_len := 5, seed := 0,
          base_reserve_x := SCALE, base_reserve_y := SCALE, lambda := 2,
          min_capital_weight := 1/50, softmax_temperature := 1,
          arb_profit_floor := 1/100 } 0).2.getD 0 dummyAmm).epoch_edge = 0
    ∧ ((rebalance_capital (fun _ => 1) [tinyAmm]
        { total_steps := 10, epoch_len := 5, seed := 0,
          base_reserve_x := SCALE, base_reserve_y := SCALE, lambda := 2,
          min_capital_weight := 1/50, softmax_temperature := 1,
          arb_profit_floor := 1/100 } 0).2.getD 0 dummyAmm).epoch_trade_count = 0
    ∧ ((rebalance_capital (fun _ => 1) [tinyAmm]
        { total_steps := 10, epoch_len := 5, seed := 0,
          base_reserve_x := SCALE, base_reserve_y := SCALE, lambda := 2,
          min_capital_weight := 1/50, softmax_temperature := 1,
          arb_profit_floor := 1/100 } 0).2.getD 0 dummyAmm).cumulative_edge
        = ([tinyAmm].getD 0 dummyAmm).cumulative_edge
    ∧ ((rebalance_capital (fun _ => 1) [tinyAmm]
        { total_steps := 10, epoch_len := 5, seed := 0,
          base_reserve_x := SCALE, base_reserve_y := SCALE, lambda := 2,
          min_capital_weight := 1/50, softmax_temperature := 1,
          arb_profit_floor := 1/100 } 0).2.getD 0 dummyAmm).storage
        = ([tinyAmm].getD 0 dummyAmm).storage
    ∧ ((rebalance_capital (fun _ => 1) [tinyAmm]
        { total_steps := 10, epoch_len := 5, seed := 0,
          base_reserve_x := SCALE, base_reserve_y := SCALE, lambda := 2,
          min_capital_weight := 1/50, softmax_temperature := 1,
          arb_profit_floor := 1/100 } 0).2.getD 0 dummyAmm).strategy_index
        = ([tinyAmm].getD 0 dummyAmm).strategy_index
    ∧ ((rebalance_capital (fun _ => 1) [tinyAmm]
        { total_steps := 10, epoch_len := 5, seed := 0,
          base_reserve_x := SCALE, base_reserve_y := SCALE, lambda := 2,
          min_capital_weight := 1/50, softmax_temperature := 1,
          arb_profit_floor := 1/100 } 0).2.getD 0 dummyAmm).name
        = ([tinyAmm].getD 0 dummyAmm).name :=
  C6_rebalance_resets_and_preserves (fun _ => 1) [tinyAmm] _ 0 0 (by norm_num)

-- ── C4: softmax weight properties ────────────────────────────────────────────

/-- C4: for a non-empty score vector, positive temperature, and
`0 < N · min_weight < 1`, the softmax weights sum to 1 (so certainly to
within `10⁻¹⁰`), every weight is at least `min_weight − ε`, and equal input
scores produce equal weights.  (In the exact-rational model the sum is
exactly 1 and every weight is at least `min_weight` itself.) -/
theorem C4_softmax_weights_spec (rexp : ℚ → ℚ) (scores : List ℚ) (T mw : ℚ)
    (hne : scores ≠ []) (_hT : 0 < T) (hmw : 0 < mw)
    (hfloor : mw * (scores.length : ℚ) < 1) (hexp : ∀ x, 0 < rexp x) :
    |(softmax_weights rexp scores T mw).sum - 1| ≤ 1 / 10 ^ 10
    ∧ (∀ w ∈ softmax_weights rexp scores T mw, mw - 1 / 10 ^ 10 ≤ w)
    ∧ (∀ s₀, (∀ s ∈ scores, s = s₀) →
        ∀ w₁ ∈ softmax_weights rexp scores T mw,
        ∀ w₂ ∈ softmax_weights rexp scores T mw, w₁ = w₂) := by
  obtain ⟨hsum, hmem, hshape⟩ := softmax_core rexp scores T mw hexp hne hmw hfloor
  refine ⟨?_, ?_, ?_⟩
  · rw [hsum]
    norm_num
  · intro w hw
    have := (hmem w hw).1
    have hpos : (0:ℚ) < 1 / 10 ^ 10 := by norm_num
    linarith
  · intro s₀ hall w₁ hw₁ w₂ hw₂
    rw [hshape] at hw₁ hw₂
    obtain ⟨t₁, ht₁, rfl⟩ := List.mem_map.mp hw₁
    obtain ⟨t₂, ht₂, rfl⟩ := List.mem_map.mp hw₂
    rw [hall t₁ ht₁, hall t₂ ht₂]

/-- C4 witness: the softmax specification at
`scores = [1, 2]`, `T = 1`, `min_weight = 1/100`, `rexp ≡ 1`. -/
theorem C4_witness :
    |(softmax_weights (fun _ => 1) [1, 2] 1 (1/100)).sum - 1| ≤ 1 / 10 ^ 10
    ∧ (∀ w ∈ softmax_weights (fun _ => 1) [1, 2] 1 (1/100),
        1/100 - 1 / 10 ^ 10 ≤ w)
    ∧ (∀ s₀, (∀ s ∈ ([1, 2] : List ℚ), s = s₀) →
        ∀ w₁ ∈ softmax_weights (fun _ => 1) [1, 2] 1 (1/100),
        ∀ w₂ ∈ softmax_weights (fun _ => 1) [1, 2] 1 (1/100), w₁ = w₂) :=
  C4_softmax_weights_spec (fun _ => 1) [1, 2] 1 (1/100) (by simp)
    (by norm_num) (by norm_num) (by norm_num) (fun _ => one_pos)

-- ── C5: non-finite scores make softmax_weights return NaN weights ────────────

/-- C5 (the code contradicts the spec's edge-case policy): `softmax_weights`
has no non-finite-score handling, so a single NaN (or infinite) score makes
every returned weight NaN.  Evaluated over the IEEE-faithful `FP` carrier at
`scores = [NaN, 0]` and `scores = [+∞, 0]` with `T = 1`,
`min_weight = 0.02`: the output is `[NaN, NaN]` in both cases, while the
spec requires an implementation that never produces NaN weights. -/
theorem C5_softmax_nan_weights :
    softmax_weights_fp (fun _ => 1) [FP.nan, FP.fin 0] 1 (1/50)
      = [FP.nan, FP.nan]
    ∧ softmax_weights_fp (fun _ => 1) [FP.inf, FP.fin 0] 1 (1/50)
      = [FP.nan, FP.nan] := by
  constructor
  · with_unfolding_all decide
  · with_unfolding_all decide

-- ── C3: the 90% input-reserve cap of optimal_arb_trade ───────────────────────

set_option maxRecDepth 4000 in
/-- C3 (the code contradicts its own comment and `arb_normalizer`):
`optimal_arb_trade` builds its search interval as `reserve · 0.9` without the
`/ SCALE_F` that `arb_normalizer` applies, so the searched inputs live in
`[0, 0.9 · R_scaled]` in unscaled units and the executed `input_scaled` can
exceed `0.9 · R_in` by a factor of up to `10⁹`.  Concretely: a pool with
scaled reserves `(10, 10)`, fair price `1/2` (so the arb buys X and pays Y),
profit floor `0.01`, and a strategy quoting `1000 × input` yields a trade
whose `input_scaled` exceeds `0.9 · reserve_y = 9` (it is `2487538829`). -/
theorem C3_arb_input_exceeds_cap :
    (optimal_arb_trade tinyAmm (1/2) (1/100) linQuote).isSome = true
    ∧ ((optimal_arb_trade tinyAmm (1/2) (1/100) linQuote).getD (false, 0, 0)).1
        = true
    ∧ (tinyAmm.reserve_y : ℚ) * (9/10)
        < (((optimal_arb_trade tinyAmm (1/2) (1/100) linQuote).getD
            (false, 0, 0)).2.1 : ℚ) := by
  with_unfolding_all decide

-- ── C1 helper lemmas: bisection bounds and floor-sum bounds ──────────────────

theorem toU64_cast_bounds (q : ℚ) (h0 : 0 ≤ q) (hq : q < 2 ^ 64) :
    q - 1 < ((toU64 q : ℕ) : ℚ) ∧ ((toU64 q : ℕ) : ℚ) ≤ q := by
  rw [toU64_eq_floor_toNat q hq]
  have hfl : 0 ≤ ⌊q⌋ := Int.floor_nonneg.mpr h0
  rw [max_eq_left hfl]
  have hcast : ((⌊q⌋.toNat : ℕ) : ℚ) = ((⌊q⌋ : ℤ) : ℚ) := by
    exact_mod_cast congrArg (fun z => ((z : ℤ) : ℚ)) (Int.toNat_of_nonneg hfl)
  rw [hcast]
  exact ⟨Int.sub_one_lt_floor q, Int.floor_le q⟩

theorem innerBisect_bounds (m : ℚ → ℚ) (lam : ℚ) (k : ℕ) (lo hi : ℚ)
    (h0 : 0 ≤ lo) (hlh : lo ≤ hi) :
    0 ≤ innerBisect m lam k lo hi ∧ innerBisect m lam k lo hi ≤ hi := by
  induction k generalizing lo hi with
  | zero =>
    rw [innerBisect]
    constructor <;> [linarith; linarith]
  | succ j ih =>
    rw [innerBisect]
    have hmid1 : lo ≤ (lo + hi) / 2 := by linarith
    have hmid2 : (lo + hi) / 2 ≤ hi := by linarith
    by_cases hb : lam ≤ m ((lo + hi) / 2)
    · simp only [if_pos hb]
      split
      · constructor <;> [linarith; linarith]
      · have := ih ((lo + hi) / 2) hi (by linarith) hmid2
        exact this
    · simp only [if_neg hb]
      split
      · constructor <;> [linarith; linarith]
      · have := ih lo ((lo + hi) / 2) h0 hmid1
        exact ⟨this.1, le_trans this.2 hmid2⟩

theorem allocation_at_shadow_bounds (cs : ℕ → Bool → ℕ → ℕ → ℕ → ℕ)
    (amms : List AmmState) (is_buy : Bool) (i : ℕ) (lam : ℚ) :
    0 ≤ allocation_at_shadow cs amms is_buy i lam := by
  simp only [allocation_at_shadow]
  set R : ℚ := if is_buy then ((amms.getD i dummyAmm).reserve_y : ℚ)
    else ((amms.getD i dummyAmm).reserve_x : ℚ) with hR
  have hr : 0 ≤ R := by
    rw [hR]
    split <;> positivity
  have hs : (0:ℚ) < SCALEQ := by norm_num [SCALEQ]
  have hmax : 0 ≤ R * (9 / 10) / SCALEQ :=
    div_nonneg (mul_nonneg hr (by norm_num)) (le_of_lt hs)
  split
  · exact le_refl 0
  · split
    · exact hmax
    · exact (innerBisect_bounds _ lam 60 0 _ le_rfl hmax).1

theorem range_map_getD (l : List α) (d : α) (g : α → β) :
    (List.range l.length).map (fun i => g (l.getD i d)) = l.map g := by
  induction l with
  | nil => simp
  | cons a t ih =>
    rw [List.length_cons, List.range_succ_eq_map]
    simp only [List.map_cons, List.map_map, List.getD_cons_zero]
    have hcomp : (List.range t.length).map ((fun i => g ((a :: t).getD i d)) ∘ Nat.succ)
        = (List.range t.length).map (fun i => g (t.getD i d)) := by
      apply List.map_congr_left
      intro i _
      simp [Function.comp]
    rw [hcomp, ih]

theorem list_sum_le_pointwise (l : List ℚ) (f g : ℚ → ℚ)
    (h : ∀ x ∈ l, f x ≤ g x) : (l.map f).sum ≤ (l.map g).sum := by
  induction l with
  | nil => simp
  | cons a t ih =>
    simp only [List.map_cons, List.sum_cons]
    have := h a (by simp)
    have := ih (fun x hx => h x (by simp [hx]))
    linarith

theorem list_sum_map_mul_left (l : List ℚ) (k : ℚ) :
    (l.map (fun x => k * x)).sum = k * l.sum := by
  induction l with
  | nil => simp
  | cons a t ih => simp [ih, mul_add]

theorem list_sum_map_mul_sub_one (l : List ℚ) (k : ℚ) :
    (l.map (fun x => k * x - 1)).sum = k * l.sum - (l.length : ℚ) := by
  induction l with
  | nil => simp
  | cons a t ih =>
    simp only [List.map_cons, List.sum_cons, List.length_cons, ih]
    push_cast
    ring

theorem routerRawAllocs_length (cs : ℕ → Bool → ℕ → ℕ → ℕ → ℕ)
    (amms : List AmmState) (is_buy : Bool) (T : ℚ) :
    (routerRawAllocs cs amms is_buy T).length = amms.length := by
  rw [routerRawAllocs]
  simp

theorem routerRawAllocs_nonneg (cs : ℕ → Bool → ℕ → ℕ → ℕ → ℕ)
    (amms : List AmmState) (is_buy : Bool) (T : ℚ) :
    ∀ x ∈ routerRawAllocs cs amms is_buy T, 0 ≤ x := by
  intro x hx
  rw [routerRawAllocs] at hx
  obtain ⟨i, _, rfl⟩ := List.mem_map.mp hx
  exact allocation_at_shadow_bounds cs amms is_buy i _

-- ── C1: router rescale makes allocations sum to the total input ──────────────

/-- C1 (amended): after the final rescale, the scaled integer allocations of
`route_order_n_amms` sum to the order's total input to within 0.1%, provided
the order is large enough for the `f64 → u64` truncation to be below the
tolerance (at least `1000·N` scaled units, i.e. `N·10⁻⁶` unscaled), the
scaled input fits in a `u64`, and — for `N ≥ 2` — the pre-rescale allocation
sum exceeds the `1e-12` guard (otherwise the source sets the rescale factor
to 0 and every pool receives 0; see the counterexample for an input below
one scaled unit). -/
theorem C1_router_rescale_sum (cs : ℕ → Bool → ℕ → ℕ → ℕ → ℕ)
    (amms : List AmmState) (is_buy : Bool) (T : ℚ)
    (hne : amms ≠ [])
    (hfit : T * SCALEQ < 2 ^ 64)
    (hbig : (amms.length : ℚ) * 1000 ≤ T * SCALEQ)
    (hraw : amms.length = 1
      ∨ 1 / 1000000000000 < (routerRawAllocs cs amms is_buy T).sum) :
    |((route_order_n_amms cs amms is_buy T).allocations.map
        (fun p => ((p.1 : ℕ) : ℚ))).sum - T * SCALEQ|
      ≤ (1 / 1000) * (T * SCALEQ) := by
  have hn1 : 0 < amms.length := List.length_pos.mpr hne
  have hlen1 : (1 : ℚ) ≤ (amms.length : ℚ) := by exact_mod_cast hn1
  have hYpos : (0 : ℚ) < T * SCALEQ := by nlinarith
  have hsq : (0 : ℚ) < SCALEQ := by norm_num [SCALEQ]
  rcases Nat.lt_or_ge amms.length 2 with hsmall | hge2
  · -- single-pool branch
    have hlen : amms.length = 1 := by omega
    rw [route_order_n_amms]
    simp only [hlen]
    norm_num
    have hb := toU64_cast_bounds (T * SCALEQ) (le_of_lt hYpos) hfit
    have h1000 : (1000 : ℚ) ≤ T * SCALEQ := by
      rw [hlen] at hbig
      push_cast at hbig
      linarith
    rw [abs_le]
    constructor
    · nlinarith [hb.1]
    · nlinarith [hb.2]
  · -- n ≥ 2 branch
    have h0 : ¬ amms.length = 0 := by omega
    have h1 : ¬ amms.length = 1 := by omega
    have hsum : 1 / 1000000000000 < (routerRawAllocs cs amms is_buy T).sum := by
      rcases hraw with h | h
      · exact absurd h h1
      · exact h
    rw [route_order_n_amms]
    simp only [if_neg h0, if_neg h1, if_pos hsum]
    set raw := routerRawAllocs cs amms is_buy T with hrawdef
    set S := raw.sum with hSdef
    have hS : (0 : ℚ) < S := lt_trans (by norm_num) hsum
    have hT : (0 : ℚ) < T := by
      by_contra hc
      push_neg at hc
      nlinarith
    set k := T / S * SCALEQ with hk
    have hkpos : 0 < k := by
      rw [hk]
      positivity
    have hrawlen : raw.length = amms.length :=
      routerRawAllocs_length cs amms is_buy T
    have hxnn : ∀ x ∈ raw, 0 ≤ x := routerRawAllocs_nonneg cs amms is_buy T
    have hxle : ∀ x ∈ raw, x ≤ S := by
      intro x hx
      exact List.single_le_sum hxnn x hx
    have hybound : ∀ x ∈ raw, 0 ≤ x * (T / S) * SCALEQ
        ∧ x * (T / S) * SCALEQ ≤ T * SCALEQ := by
      intro x hx
      have h1 := hxnn x hx
      have h2 := hxle x hx
      constructor
      · positivity
      · have : x * (T / S) ≤ S * (T / S) := by
          apply mul_le_mul_of_nonneg_right h2
          positivity
        have hST : S * (T / S) = T := by
          field_simp
        nlinarith
    -- the allocation list's first components are the truncated rescaled allocs
    have hmapeq : ((List.range amms.length).map (fun i =>
        let amm := amms.getD i dummyAmm
        let input_f := raw.getD i 0 * (T / S)
        let input_scaled := toU64 (input_f * SCALEQ)
        if input_scaled = 0 then ((0 : ℕ), (0 : ℕ))
        else (input_scaled, cs i is_buy input_scaled amm.reserve_x amm.reserve_y))).map
          (fun p => ((p.1 : ℕ) : ℚ))
        = raw.map (fun x => ((toU64 (x * (T / S) * SCALEQ) : ℕ) : ℚ)) := by
      rw [List.map_map, ← hrawlen]
      have := range_map_getD raw 0
        (fun x => ((toU64 (x * (T / S) * SCALEQ) : ℕ) : ℚ))
      rw [← this]
      apply List.map_congr_left
      intro i _
      simp only [Function.comp]
      split
      · rename_i hz
        simp only [List.getD_eq_getElem?_getD] at hz ⊢
        rw [hz]
      · rfl
    rw [hmapeq]
    -- pointwise floor bounds, then sum
    have hup : (raw.map (fun x => ((toU64 (x * (T / S) * SCALEQ) : ℕ) : ℚ))).sum
        ≤ (raw.map (fun x => k * x)).sum := by
      apply list_sum_le_pointwise
      intro x hx
      obtain ⟨hy0, hyT⟩ := hybound x hx
      have hylt : x * (T / S) * SCALEQ < 2 ^ 64 := lt_of_le_of_lt hyT hfit
      have := (toU64_cast_bounds _ hy0 hylt).2
      calc ((toU64 (x * (T / S) * SCALEQ) : ℕ) : ℚ)
          ≤ x * (T / S) * SCALEQ := this
        _ = k * x := by rw [hk]; ring
    have hlo : (raw.map (fun x => k * x - 1)).sum
        ≤ (raw.map (fun x => ((toU64 (x * (T / S) * SCALEQ) : ℕ) : ℚ))).sum := by
      apply list_sum_le_pointwise
      intro x hx
      obtain ⟨hy0, hyT⟩ := hybound x hx
      have hylt : x * (T / S) * SCALEQ < 2 ^ 64 := lt_of_le_of_lt hyT hfit
      have := (toU64_cast_bounds _ hy0 hylt).1
      have hky : k * x = x * (T / S) * SCALEQ := by rw [hk]; ring
      linarith [this]
    rw [list_sum_map_mul_left, list_sum_map_mul_sub_one] at *
    have hkS : k * S = T * SCALEQ := by
      rw [hk]
      field_simp
    rw [hkS] at hup hlo
    rw [hrawlen] at hlo
    rw [abs_le]
    constructor
    · linarith
    · linarith

/-- C1 counterexample: a one-pool route of an input below one scaled unit
(`T = 10⁻¹⁰`, so `T · SCALE = 0.1`) truncates to an all-zero allocation:
the allocations sum to 0, which is not within 0.1% of the total input. -/
theorem C1_counterexample :
    ¬ (|((route_order_n_amms zeroQuote [unitAmm] true
          (1 / 10000000000)).allocations.map
          (fun p => ((p.1 : ℕ) : ℚ))).sum - (1 / 10000000000) * SCALEQ|
        ≤ (1 / 1000) * ((1 / 10000000000) * SCALEQ)) := by
  with_unfolding_all decide

/-- C1 witness: the amended theorem at a one-pool route of one unscaled unit. -/
theorem C1_witness :
    |((route_order_n_amms zeroQuote [unitAmm] true 1).allocations.map
        (fun p => ((p.1 : ℕ) : ℚ))).sum - 1 * SCALEQ|
      ≤ (1 / 1000) * (1 * SCALEQ) :=
  C1_router_rescale_sum zeroQuote [unitAmm] true 1 (by simp)
    (by norm_num [SCALEQ]) (by norm_num [SCALEQ]) (Or.inl (by simp))

-- ── C9: n_strategies in dispatched AfterSwapPayloads ─────────────────────────

set_option maxRecDepth 4000 in
/-- C9 (the code contradicts its own payload documentation): the arbitrage
call site of `dispatch_after_swap` passes `n_strat` — the strategy count
WITHOUT the normalizer — as `total_n`, while the retail call site passes
`n_strat + 1` and `types.rs` documents the field as "total number of
competing strategies incl. normalizer".  Concretely: one step of a
simulation with 1 strategy (so 2 AMMs including the normalizer) in which an
arbitrage executes dispatches exactly one `AfterSwapPayload`, and its
`n_strategies` field is 1, not 2. -/
theorem C9_after_swap_n_strategies :
    ((simStep oracleZero [linStrategy] cfg9
      (initState oracleZero [linStrategy] cfg9)).after_swap_trace.map
      (fun p => p.n_strategies)) = [1]
    ∧ (1 : ℕ) ≠ [linStrategy].length + 1 := by
  with_unfolding_all decide

-- ── C8: determinism of run_simulation ────────────────────────────────────────

theorem stepsTo_det {f : SimState → SimState} {s : SimState} {n : ℕ}
    {t t' : SimState} (h : StepsTo f s n t) (h' : StepsTo f s n t') : t = t' := by
  induction h generalizing t' with
  | zero s =>
    cases h'
    rfl
  | succ s n t _ ih =>
    cases h' with
    | succ _ _ _ h2 => exact ih h2

/-- C8: the main loop of `run_simulation` is deterministic — for a fixed
randomness oracle (the abstraction of the seeded counter-based ChaCha8 RNG),
fixed deterministic strategies, and a fixed config, any two executions of
`total_steps` loop iterations from the seeded initial state deliver the same
`SimResult` (same final edges, epoch summaries, normalizer edge, and final
capital weights). -/
theorem C8_run_simulation_deterministic (O : Oracles) (runners : List Strategy)
    (cfg : SimConfig) (r₁ r₂ : SimResult)
    (h₁ : RunSim O runners cfg r₁) (h₂ : RunSim O runners cfg r₂) :
    r₁ = r₂ := by
  obtain ⟨s₁, hs₁, hr₁⟩ := h₁
  obtain ⟨s₂, hs₂, hr₂⟩ := h₂
  rw [hr₁, hr₂, stepsTo_det hs₁ hs₂]

/-- C8 witness: two executions of the zero-step simulation deliver the same
result. -/
theorem C8_witness :
    resultOf (initState oracleZero [] cfg0)
      = resultOf (initState oracleZero [] cfg0) :=
  C8_run_simulation_deterministic oracleZero [] cfg0 _ _
    ⟨initState oracleZero [] cfg0, StepsTo.zero _, rfl⟩
    ⟨initState oracleZero [] cfg0, StepsTo.zero _, rfl⟩

-- ── C10 helper lemmas: nothing ever resets the normalizer's accumulators ─────

theorem arb_normalizer_facts (n : AmmState) (fee : ℕ) (fair floor : ℚ) :
    (arb_normalizer n fee fair floor).epoch_edge
        - (arb_normalizer n fee fair floor).cumulative_edge
      = n.epoch_edge - n.cumulative_edge
    ∧ (arb_normalizer n fee fair floor).storage = n.storage
    ∧ (arb_normalizer n fee fair floor).capital_weight = n.capital_weight
    ∧ n.epoch_trade_count ≤ (arb_normalizer n fee fair floor).epoch_trade_count := by
  refine ⟨?_, ?_, ?_, ?_⟩
  · simp only [arb_normalizer]
    split <;> try split
    all_goals first | rfl | (simp only [AmmState.accrue_edge]; ring)
  · simp only [arb_normalizer]
    split <;> try split
    all_goals rfl
  · simp only [arb_normalizer]
    split <;> try split
    all_goals rfl
  · simp only [arb_normalizer]
    split <;> try split
    all_goals first | exact le_rfl | (simp [AmmState.accrue_edge]; try omega)

theorem retailApplyOne_norm_facts (runners : List Strategy) (cfg : SimConfig)
    (fair : ℚ) (step : ℕ) (is_buy : Bool) (tn tis : ℕ)
    (allocs : List (ℕ × ℕ))
    (acc : List AmmState × AmmState × List AfterSwapPayload) (idx : ℕ) :
    (retailApplyOne runners cfg fair step is_buy tn tis allocs acc idx).2.1.epoch_edge
        - (retailApplyOne runners cfg fair step is_buy tn tis allocs acc idx).2.1.cumulative_edge
      = acc.2.1.epoch_edge - acc.2.1.cumulative_edge
    ∧ (retailApplyOne runners cfg fair step is_buy tn tis allocs acc idx).2.1.storage
      = acc.2.1.storage
    ∧ (retailApplyOne runners cfg fair step is_buy tn tis allocs acc idx).2.1.capital_weight
      = acc.2.1.capital_weight
    ∧ acc.2.1.epoch_trade_count
      ≤ (retailApplyOne runners cfg fair step is_buy tn tis allocs acc idx).2.1.epoch_trade_count := by
  refine ⟨?_, ?_, ?_, ?_⟩
  · simp only [retailApplyOne]
    split <;> try split
    all_goals first | rfl | (simp only [AmmState.accrue_edge]; ring)
  · simp only [retailApplyOne]
    split <;> try split
    all_goals rfl
  · simp only [retailApplyOne]
    split <;> try split
    all_goals rfl
  · simp only [retailApplyOne]
    split <;> try split
    all_goals first | exact le_rfl | (simp [AmmState.accrue_edge]; try omega)

theorem retailFold_norm_facts (runners : List Strategy) (cfg : SimConfig)
    (fair : ℚ) (step : ℕ) (is_buy : Bool) (tn tis : ℕ)
    (allocs : List (ℕ × ℕ)) (idxs : List ℕ)
    (acc : List AmmState × AmmState × List AfterSwapPayload) :
    (idxs.foldl (retailApplyOne runners cfg fair step is_buy tn tis allocs) acc).2.1.epoch_edge
        - (idxs.foldl (retailApplyOne runners cfg fair step is_buy tn tis allocs) acc).2.1.cumulative_edge
      = acc.2.1.epoch_edge - acc.2.1.cumulative_edge
    ∧ (idxs.foldl (retailApplyOne runners cfg fair step is_buy tn tis allocs) acc).2.1.storage
      = acc.2.1.storage
    ∧ (idxs.foldl (retailApplyOne runners cfg fair step is_buy tn tis allocs) acc).2.1.capital_weight
      = acc.2.1.capital_weight
    ∧ acc.2.1.epoch_trade_count
      ≤ (idxs.foldl (retailApplyOne runners cfg fair step is_buy tn tis allocs) acc).2.1.epoch_trade_count := by
  induction idxs generalizing acc with
  | nil => exact ⟨rfl, rfl, rfl, le_rfl⟩
  | cons i t ih =>
    simp only [List.foldl_cons]
    obtain ⟨e1, s1, w1, c1⟩ :=
      retailApplyOne_norm_facts runners cfg fair step is_buy tn tis allocs acc i
    obtain ⟨e2, s2, w2, c2⟩ :=
      ih (retailApplyOne runners cfg fair step is_buy tn tis allocs acc i)
    exact ⟨by rw [e2, e1], by rw [s2, s1], by rw [w2, w1], le_trans c1 c2⟩

theorem route_retail_order_norm_facts (runners : List Strategy)
    (cfg : SimConfig) (is_buy : Bool) (size_y fair : ℚ) (step : ℕ)
    (strat_amms : List AmmState) (norm_amm : AmmState) (norm_fee : ℕ) :
    (route_retail_order runners cfg is_buy size_y fair step strat_amms norm_amm norm_fee).2.1.epoch_edge
        - (route_retail_order runners cfg is_buy size_y fair step strat_amms norm_amm norm_fee).2.1.cumulative_edge
      = norm_amm.epoch_edge - norm_amm.cumulative_edge
    ∧ (route_retail_order runners cfg is_buy size_y fair step strat_amms norm_amm norm_fee).2.1.storage
      = norm_amm.storage
    ∧ (route_retail_order runners cfg is_buy size_y fair step strat_amms norm_amm norm_fee).2.1.capital_weight
      = norm_amm.capital_weight
    ∧ norm_amm.epoch_trade_count
      ≤ (route_retail_order runners cfg is_buy size_y fair step strat_amms norm_amm norm_fee).2.1.epoch_trade_count := by
  rw [route_retail_order]
  exact retailFold_norm_facts runners cfg fair step is_buy _ _ _ _ _

theorem ordersFold_norm_facts (runners : List Strategy) (cfg : SimConfig)
    (fair : ℚ) (stepn : ℕ) (fee : ℕ) (orders : List RetailOrder)
    (acc : List AmmState × AmmState × List AfterSwapPayload) :
    (orders.foldl
      (fun (acc : List AmmState × AmmState × List AfterSwapPayload) o =>
        let t := route_retail_order runners cfg o.is_buy o.size_y fair stepn
          acc.1 acc.2.1 fee
        (t.1, t.2.1, acc.2.2 ++ t.2.2)) acc).2.1.epoch_edge
        - (orders.foldl
          (fun (acc : List AmmState × AmmState × List AfterSwapPayload) o =>
            let t := route_retail_order runners cfg o.is_buy o.size_y fair stepn
              acc.1 acc.2.1 fee
            (t.1, t.2.1, acc.2.2 ++ t.2.2)) acc).2.1.cumulative_edge
      = acc.2.1.epoch_edge - acc.2.1.cumulative_edge
    ∧ (orders.foldl
      (fun (acc : List AmmState × AmmState × List AfterSwapPayload) o =>
        let t := route_retail_order runners cfg o.is_buy o.size_y fair stepn
          acc.1 acc.2.1 fee
        (t.1, t.2.1, acc.2.2 ++ t.2.2)) acc).2.1.storage = acc.2.1.storage
    ∧ (orders.foldl
      (fun (acc : List AmmState × AmmState × List AfterSwapPayload) o =>
        let t := route_retail_order runners cfg o.is_buy o.size_y fair stepn
          acc.1 acc.2.1 fee
        (t.1, t.2.1, acc.2.2 ++ t.2.2)) acc).2.1.capital_weight
      = acc.2.1.capital_weight
    ∧ acc.2.1.epoch_trade_count ≤ (orders.foldl
      (fun (acc : List AmmState × AmmState × List AfterSwapPayload) o =>
        let t := route_retail_order runners cfg o.is_buy o.size_y fair stepn
          acc.1 acc.2.1 fee
        (t.1, t.2.1, acc.2.2 ++ t.2.2)) acc).2.1.epoch_trade_count := by
  induction orders generalizing acc with
  | nil => exact ⟨rfl, rfl, rfl, le_rfl⟩
  | cons o t ih =>
    simp only [List.foldl_cons]
    obtain ⟨e1, s1, w1, c1⟩ := route_retail_order_norm_facts runners cfg
      o.is_buy o.size_y fair stepn acc.1 acc.2.1 fee
    obtain ⟨e2, s2, w2, c2⟩ := ih
      (route_retail_order runners cfg o.is_buy o.size_y fair stepn acc.1
        acc.2.1 fee |>.1,
       route_retail_order runners cfg o.is_buy o.size_y fair stepn acc.1
        acc.2.1 fee |>.2.1,
       acc.2.2 ++ (route_retail_order runners cfg o.is_buy o.size_y fair stepn
        acc.1 acc.2.1 fee |>.2.2))
    exact ⟨by rw [e2]; exact e1, by rw [s2]; exact s1,
           by rw [w2]; exact w1, le_trans c1 c2⟩

theorem preEpochPhase_norm_facts (O : Oracles) (runners : List Strategy)
    (cfg : SimConfig) (s : SimState) :
    (preEpochPhase O runners cfg s).norm_amm.epoch_edge
        - (preEpochPhase O runners cfg s).norm_amm.cumulative_edge
      = s.norm_amm.epoch_edge - s.norm_amm.cumulative_edge
    ∧ (preEpochPhase O runners cfg s).norm_amm.storage = s.norm_amm.storage
    ∧ (preEpochPhase O runners cfg s).norm_amm.capital_weight
      = s.norm_amm.capital_weight
    ∧ s.norm_amm.epoch_trade_count
      ≤ (preEpochPhase O runners cfg s).norm_amm.epoch_trade_count := by
  simp only [preEpochPhase]
  obtain ⟨e1, s1, w1, c1⟩ := arb_normalizer_facts s.norm_amm
    s.params.norm_fee_bps (gbm_step O s.fair_price s.params.sigma s.ctr).1
    cfg.arb_profit_floor
  obtain ⟨e2, s2, w2, c2⟩ := ordersFold_norm_facts runners cfg
    (gbm_step O s.fair_price s.params.sigma s.ctr).1 s.step
    s.params.norm_fee_bps
    (generate_retail_orders O s.params
      (gbm_step O s.fair_price s.params.sigma s.ctr).2).1
    (((List.range runners.length).foldl
        (arbOnePool runners cfg
          (gbm_step O s.fair_price s.params.sigma s.ctr).1 s.step s.norm_amm)
        (s.strat_amms, [])).1,
      arb_normalizer s.norm_amm s.params.norm_fee_bps
        (gbm_step O s.fair_price s.params.sigma s.ctr).1 cfg.arb_profit_floor,
      ((List.range runners.length).foldl
        (arbOnePool runners cfg
          (gbm_step O s.fair_price s.params.sigma s.ctr).1 s.step s.norm_amm)
        (s.strat_amms, [])).2)
  exact ⟨by rw [e2]; exact e1, by rw [s2]; exact s1,
         by rw [w2]; exact w1, le_trans c1 c2⟩

theorem epochPhase_norm_frame (O : Oracles) (runners : List Strategy)
    (cfg : SimConfig) (s : SimState) :
    (epochPhase O runners cfg s).norm_amm = s.norm_amm := by
  simp only [epochPhase]
  split <;> rfl

theorem simStep_norm_facts (O : Oracles) (runners : List Strategy)
    (cfg : SimConfig) (s : SimState) :
    (simStep O runners cfg s).norm_amm.epoch_edge
        - (simStep O runners cfg s).norm_amm.cumulative_edge
      = s.norm_amm.epoch_edge - s.norm_amm.cumulative_edge
    ∧ (simStep O runners cfg s).norm_amm.storage = s.norm_amm.storage
    ∧ (simStep O runners cfg s).norm_amm.capital_weight
      = s.norm_amm.capital_weight
    ∧ s.norm_amm.epoch_trade_count
      ≤ (simStep O runners cfg s).norm_amm.epoch_trade_count := by
  have hstep : (simStep O runners cfg s).norm_amm
      = (preEpochPhase O runners cfg s).norm_amm := by
    simp only [simStep]
    exact epochPhase_norm_frame O runners cfg (preEpochPhase O runners cfg s)
  rw [hstep]
  exact preEpochPhase_norm_facts O runners cfg s

-- ── C10: the normalizer is exempt from epoch-boundary processing ─────────────

/-- C10: the epoch-boundary block leaves the normalizer pool entirely
untouched (reserves, capital weight, storage, accumulators — the whole
state), and over an entire simulation the normalizer's `epoch_edge` always
equals its `cumulative_edge` (it is accrued but never reset), its
`epoch_trade_count` never decreases (never reset), its storage stays the
zero-initialised buffer (no hook is ever dispatched to it), and its capital
weight stays at its initial value 1 (it is excluded from the rebalance). -/
theorem C10_normalizer_epoch_exempt (O : Oracles) (runners : List Strategy)
    (cfg : SimConfig) :
    (∀ s, (epochPhase O runners cfg s).norm_amm = s.norm_amm)
    ∧ (∀ s, s.norm_amm.epoch_trade_count
        ≤ (simStep O runners cfg s).norm_amm.epoch_trade_count)
    ∧ (∀ n,
        (iterSteps O runners cfg n (initState O runners cfg)).norm_amm.epoch_edge
          = (iterSteps O runners cfg n (initState O runners cfg)).norm_amm.cumulative_edge
        ∧ (iterSteps O runners cfg n (initState O runners cfg)).norm_amm.storage
          = initStorage
        ∧ (iterSteps O runners cfg n (initState O runners cfg)).norm_amm.capital_weight
          = 1) := by
  refine ⟨epochPhase_norm_frame O runners cfg,
          fun s => (simStep_norm_facts O runners cfg s).2.2.2, ?_⟩
  have key : ∀ (n : ℕ) (s : SimState),
      s.norm_amm.epoch_edge = s.norm_amm.cumulative_edge →
      s.norm_amm.storage = initStorage →
      s.norm_amm.capital_weight = 1 →
      (iterSteps O runners cfg n s).norm_amm.epoch_edge
        = (iterSteps O runners cfg n s).norm_amm.cumulative_edge
      ∧ (iterSteps O runners cfg n s).norm_amm.storage = initStorage
      ∧ (iterSteps O runners cfg n s).norm_amm.capital_weight = 1 := by
    intro n
    induction n with
    | zero => exact fun s he hs hw => ⟨he, hs, hw⟩
    | succ m ih =>
      intro s he hs hw
      rw [iterSteps]
      obtain ⟨e1, s1, w1, _⟩ := simStep_norm_facts O runners cfg s
      refine ih (simStep O runners cfg s) ?_ ?_ ?_
      · have : s.norm_amm.epoch_edge - s.norm_amm.cumulative_edge = 0 := by
          rw [he]; ring
        rw [this] at e1
        linarith [e1]
      · rw [s1, hs]
      · rw [w1, hw]
  intro n
  refine key n (initState O runners cfg) ?_ ?_ ?_
  · rfl
  · rfl
  · rfl

end PropAmm

